import Mathlib

/-!
embedded-cli: character ingestion, completion and dispatch

A shallow embedding of `src/cli.c` and `src/cli_defs.h`.

* Bytes (`char`, `uint8_t`) are natural numbers; the `uint8_t` fields of the
  handle are reduced modulo 256 where the code increments or assigns them.
* The static buffer `buf` is a list of `MAX_BUF_SIZE` bytes and `buf_ptr` is
  the offset `buf_ptr - buf`.
* A C string held in a list is the run of bytes before the first 0.
* An access outside an object (a store at `buf[128]`, a store at `argv[30]`,
  `strcmp` on a null `argv[0]`, `strlen` over a buffer with no terminator) is
  undefined in C; the embedding stops there with `Outcome.fault`.
* `cli_put` and `cli_complete` call each other; the embedding bounds the depth
  of that recursion by a natural number and yields `Outcome.nofuel` when the
  bound is reached.
* The output sink and the command handlers are external. Every call the core
  makes to them is appended to the trace `State.out`; a handler is a function
  from `(argc, argv)` to a status.
-/

namespace EmbeddedCli

/-- Capacity of the receive buffer (`cli_defs.h`, line 7). -/
def MAX_BUF_SIZE : Nat := 128

/-- Status codes of `cli_defs.h`. -/
inductive cli_status_t where
  | CLI_OK
  | CLI_E_NULL_PTR
  | CLI_E_IO
  | CLI_E_CMD_NOT_FOUND
  | CLI_E_INVALID_ARGS
  | CLI_E_BUF_FULL
  deriving DecidableEq, Repr

open cli_status_t

/-- Command structure: a name (the bytes of the C string) and a handler. -/
structure cmd_t where
  cmd : List Nat
  func : Nat → List (List Nat) → cli_status_t

/-- Calls made by the core to its collaborators, in order. -/
inductive Event where
  | print (txt : List Nat)
  | println (txt : List Nat)
  | call (idx : Nat) (argc : Nat) (argv : List (List Nat))
  deriving DecidableEq, Repr

/-- Accesses that are undefined behaviour in the C source. -/
inductive Fault where
  | buf_store
  | buf_read
  | argv_store
  | null_argv
  | tbl_index
  deriving DecidableEq, Repr

/-- Result of running a piece of the program. -/
inductive Outcome (α : Type) where
  | ok (a : α)
  | fault (f : Fault)
  | nofuel
  deriving DecidableEq, Repr

/-- The mutable fields of `cli_t` together with the static buffers of `cli.c`:
`buf` holds its `MAX_BUF_SIZE` bytes, `buf_ptr` is the offset `buf_ptr - buf`,
and `cmd_buf` is the C string that `strcpy` left in the command buffer. -/
structure State where
  sequence : Nat
  prev_index : Nat
  tab_index : Nat
  sequence_char : Nat
  prev_char : Nat
  buf : List Nat
  buf_ptr : Nat
  cmd_buf : List Nat
  out : List Event
  deriving DecidableEq, Repr

/-- The bytes of a string literal. -/
def str (s : String) : List Nat := s.toList.map Char.toNat

/-- The prompt `">> "`. -/
def cli_prompt : List Nat := [62, 62, 32]

/-- The message `"CMD: Command not recognised"`. -/
def cli_unrecog : List Nat :=
  [67, 77, 68, 58, 32, 67, 111, 109, 109, 97, 110, 100, 32, 110, 111, 116, 32,
   114, 101, 99, 111, 103, 110, 105, 115, 101, 100]

/-- The C string stored in a list: the bytes before the first 0. -/
def cstr (p : List Nat) : List Nat := p.takeWhile (fun c => c != 0)

/-- Function `strlen` over a bounded object: `none` when no terminator lies inside it. -/
def strlen : List Nat → Option Nat
  | [] => none
  | c :: cs => if c = 0 then some 0 else (strlen cs).map (fun n => n + 1)

/-- Function `strcmp` on two C strings given by their bytes (compared as unsigned). -/
def strcmp : List Nat → List Nat → Int
  | [], [] => 0
  | [], b :: _ => - (b : Int)
  | a :: _, [] => (a : Int)
  | a :: as, b :: bs =>
    if a = 0 ∧ b = 0 then 0
    else if a ≠ b then (a : Int) - (b : Int)
    else strcmp as bs

/-- Function `cli_print`. -/
def cli_print (s : State) (msg : List Nat) : State :=
  { s with out := s.out ++ [Event.print msg] }

/-- Function `cli_println`. -/
def cli_println (s : State) (msg : List Nat) : State :=
  { s with out := s.out ++ [Event.println msg] }

/-- Function `cli_print_char`: the sink receives the one staged byte. -/
def cli_print_char (s : State) (letter : Nat) : State :=
  { s with out := s.out ++ [Event.print [letter]] }

/-- The loop of `checkStringDifference` over the bytes of `A` before its terminator. -/
def diff_offset : List Nat → List Nat → Nat
  | a :: as, b :: bs => if a ≠ b then 0 else diff_offset as bs + 1
  | _, _ => 0

/-- Function `checkStringDifference`: offset of the first difference of `A` and `B`. -/
def checkStringDifference (A B : List Nat) : Nat := diff_offset (cstr A) B

/-- The statement `tab_index++` followed by the wrap to 0 at `cmd_cnt`. -/
def tab_advance (cmd_cnt : Nat) (s : State) : State :=
  let t := (s.tab_index + 1) % 256
  { s with tab_index := if t ≥ cmd_cnt then 0 else t }

/-- The inner loop of `cli_complete`: each remaining byte goes through `cli_put`,
whose status is ignored. -/
def feed_chars (put : State → Nat → Outcome (State × cli_status_t)) :
    List Nat → State → Outcome State
  | [], s => Outcome.ok s
  | c :: cs, s =>
    match put s c with
    | Outcome.ok (s1, _) => feed_chars put cs s1
    | Outcome.fault f => Outcome.fault f
    | Outcome.nofuel => Outcome.nofuel

/-- The scanning loop of `cli_complete`; the first argument is `cmd_cnt - runs`. -/
def complete_scan (put : State → Nat → Outcome (State × cli_status_t)) (tbl : List cmd_t) :
    Nat → Nat → State → Outcome State
  | 0, _, s => Outcome.ok s
  | r + 1, i, s =>
    let j := if i ≥ tbl.length then 0 else i
    match strlen s.buf with
    | none => Outcome.fault Fault.buf_read
    | some n =>
      match tbl[j]? with
      | none => Outcome.fault Fault.tbl_index
      | some e =>
        if checkStringDifference e.cmd s.buf = n then
          feed_chars put ((cstr e.cmd).drop n) s
        else
          complete_scan put tbl r (j + 1) (tab_advance tbl.length s)

/-- Function `cli_complete`, with the `cli_put` it calls back as a parameter. -/
def cli_complete (put : State → Nat → Outcome (State × cli_status_t)) (tbl : List cmd_t)
    (s : State) : Outcome (State × cli_status_t) :=
  match strlen s.buf with
  | none => Outcome.fault Fault.buf_read
  | some n =>
    let s1 := { s with prev_index := n % 256 }
    match complete_scan put tbl tbl.length s1.tab_index s1 with
    | Outcome.ok s2 => Outcome.ok (tab_advance tbl.length s2, CLI_OK)
    | Outcome.fault f => Outcome.fault f
    | Outcome.nofuel => Outcome.nofuel

/-- Function `strtok` with the delimiter `" "` on the rest of the string: the
token found and the rest after the delimiter that ended it. -/
def strtok (s : List Nat) : Option (List Nat × List Nat) :=
  match s.dropWhile (fun c => c == 32) with
  | [] => none
  | t => some (t.takeWhile (fun c => c != 32), (t.dropWhile (fun c => c != 32)).drop 1)

/-- The loop `while((argv[argc] != NULL) && (argc < 30)) argv[++argc] = strtok(NULL, " ")`.
The first argument is `30 - argc`, the second is `argv[argc]` with the rest of
the string; the result is `argv[0 .. argc)` at the exit of the loop. -/
def tok_walk : Nat → Option (List Nat × List Nat) → List (List Nat)
  | _, none => []
  | 0, some _ => []
  | k + 1, some (t, r) => t :: tok_walk k (strtok r)

/-- The tokens `argv[0 .. argc)` of a command buffer. -/
def tokenize (cmd : List Nat) : List (List Nat) := tok_walk 30 (strtok cmd)

/-- The table scan of `cli_process`, from entry `i` on. -/
def scan_tbl (argc : Nat) (argv : List (List Nat)) :
    List cmd_t → Nat → State → Outcome (State × cli_status_t)
  | [], _, s => Outcome.ok (cli_println s cli_unrecog, CLI_E_CMD_NOT_FOUND)
  | e :: es, i, s =>
    match argv.head? with
    | none => Outcome.fault Fault.null_argv
    | some a0 =>
      if strcmp a0 e.cmd = 0 then
        Outcome.ok ({ s with out := s.out ++ [Event.call i argc argv] }, e.func argc argv)
      else scan_tbl argc argv es (i + 1) s

/-- Function `cli_process`. The last index stored by the tokenizer is `argc`;
`argv` has 30 slots. -/
def cli_process (tbl : List cmd_t) (s : State) : Outcome (State × cli_status_t) :=
  let s1 := { s with tab_index := 0 }
  let argv := tokenize s.cmd_buf
  let argc := argv.length
  if 30 ≤ argc then Outcome.fault Fault.argv_store
  else scan_tbl argc argv tbl 0 s1

/-- The terminator case of `cli_put` up to the call of `cli_process` (lines 192 to 196):
the line is terminated and copied (`n` is its `strlen`), `buf_ptr` is reset and
`"\r"`, `"\n"` are echoed. -/
def finalize (s : State) (n : Nat) : State :=
  let b := s.buf.set s.buf_ptr 0
  let s1 := { s with buf := b, cmd_buf := b.take n, buf_ptr := 0 }
  cli_print_char (cli_print_char s1 13) 10

/-- The body of `cli_put`, with the `cli_put` that `cli_complete` calls back as a parameter. -/
def cli_put_body (put : State → Nat → Outcome (State × cli_status_t)) (tbl : List cmd_t)
    (s : State) (c : Nat) : Outcome (State × cli_status_t) :=
  if s.sequence = 1 ∧ s.sequence_char = 0 then
    Outcome.ok ({ s with sequence_char := c }, CLI_OK)
  else if c ≠ s.sequence_char ∧ s.sequence = 1 then
    Outcome.ok ({ s with sequence := 0 }, CLI_OK)
  else if c = 0x1B then
    Outcome.ok ({ s with sequence := 1, sequence_char := 0 }, CLI_OK)
  else if c = 13 then
    if s.buf_ptr < MAX_BUF_SIZE then
      match strlen (s.buf.set s.buf_ptr 0) with
      | none => Outcome.fault Fault.buf_read
      | some n =>
        match cli_process tbl (finalize s n) with
        | Outcome.ok (s3, _) =>
          let s4 := { s3 with buf := List.replicate MAX_BUF_SIZE 0 }
          let s5 := cli_print s4 cli_prompt
          Outcome.ok ({ s5 with prev_char := c }, CLI_OK)
        | Outcome.fault f => Outcome.fault f
        | Outcome.nofuel => Outcome.nofuel
    else Outcome.fault Fault.buf_store
  else if c = 0x7F ∨ c = 8 then
    let p := if s.buf_ptr > 0 then s.buf_ptr - 1 else s.buf_ptr
    if p < MAX_BUF_SIZE then
      let s1 := { s with buf_ptr := p, buf := s.buf.set p 0 }
      let s2 := cli_print_char s1 c
      Outcome.ok ({ s2 with prev_char := c }, CLI_OK)
    else Outcome.fault Fault.buf_store
  else if c = 9 then
    let r : Outcome State :=
      if s.prev_char = c then
        if s.prev_index < MAX_BUF_SIZE then
          Outcome.ok
            { s with
              out := s.out ++ List.replicate (s.buf_ptr - s.prev_index) (Event.print [0x7F])
              buf_ptr := s.prev_index
              buf := s.buf.take s.prev_index
                ++ List.replicate (MAX_BUF_SIZE - s.prev_index) 0 }
        else Outcome.fault Fault.buf_store
      else Outcome.ok s
    match r with
    | Outcome.ok s1 =>
      match cli_complete put tbl s1 with
      | Outcome.ok (s2, _) => Outcome.ok ({ s2 with prev_char := c }, CLI_OK)
      | Outcome.fault f => Outcome.fault f
      | Outcome.nofuel => Outcome.nofuel
    | Outcome.fault f => Outcome.fault f
    | Outcome.nofuel => Outcome.nofuel
  else
    if s.buf_ptr < MAX_BUF_SIZE then
      let s1 := { s with buf := s.buf.set s.buf_ptr c, buf_ptr := s.buf_ptr + 1 }
      let s2 := cli_print_char s1 c
      Outcome.ok ({ s2 with prev_char := c }, CLI_OK)
    else Outcome.ok (s, CLI_E_BUF_FULL)

/-- Function `cli_put`. The first argument bounds the depth of the calls
`cli_put → cli_complete → cli_put`. -/
def cli_put (tbl : List cmd_t) : Nat → State → Nat → Outcome (State × cli_status_t)
  | 0, _, _ => Outcome.nofuel
  | d + 1, s, c => cli_put_body (cli_put tbl d) tbl s c

/-- The state after `cli_init` on a zeroed handle: empty buffers, no output but the prompt. -/
def cli_init : State :=
  cli_print
    { sequence := 0, prev_index := 0, tab_index := 0, sequence_char := 0, prev_char := 0,
      buf := List.replicate MAX_BUF_SIZE 0, buf_ptr := 0, cmd_buf := [], out := [] }
    cli_prompt

/-- Feeding a sequence of bytes, one `cli_put` call each; the statuses are collected. -/
def feed (tbl : List cmd_t) (d : Nat) : State → List Nat → Outcome (State × List cli_status_t)
  | s, [] => Outcome.ok (s, [])
  | s, c :: cs =>
    match cli_put tbl d s c with
    | Outcome.ok (s1, st) =>
      match feed tbl d s1 cs with
      | Outcome.ok (s2, sts) => Outcome.ok (s2, st :: sts)
      | Outcome.fault f => Outcome.fault f
      | Outcome.nofuel => Outcome.nofuel
    | Outcome.fault f => Outcome.fault f
    | Outcome.nofuel => Outcome.nofuel

/-- The line being edited: the bytes of `buf` before `buf_ptr`. -/
def line (s : State) : List Nat := s.buf.take s.buf_ptr

/-- An ordinary byte: none of the terminator, erase, tab and escape bytes. -/
def ordinary (c : Nat) : Prop := c ≠ 13 ∧ c ≠ 8 ∧ c ≠ 0x7F ∧ c ≠ 9 ∧ c ≠ 0x1B

instance (c : Nat) : Decidable (ordinary c) := by unfold ordinary; infer_instance

/-- A printable byte: 0x20 to 0x7E. -/
def printable (c : Nat) : Prop := 0x20 ≤ c ∧ c ≤ 0x7E

instance (c : Nat) : Decidable (printable c) := by unfold printable; infer_instance

/-- A sample command table: `status` and `set` succeed, `stop` reports `CLI_E_IO`. -/
def demo_tbl : List cmd_t :=
  [⟨str "status", fun _ _ => CLI_OK⟩, ⟨str "stop", fun _ _ => CLI_E_IO⟩,
   ⟨str "set", fun argc _ => if argc = 2 then CLI_OK else CLI_E_INVALID_ARGS⟩]

/-- The initial state with a given C string in the command buffer. -/
def with_cmd (cmd : List Nat) : State := { cli_init with cmd_buf := cmd }

/-- The initial state with a given line in the buffer (zeros after it). -/
def with_line (l : List Nat) : State :=
  { cli_init with buf := l ++ List.replicate (MAX_BUF_SIZE - l.length) 0, buf_ptr := l.length }

/-- Whether the table entry at cyclic position `t`, counted from the cursor `c`
(that is the entry of index `(c + t) % cmd_cnt`), has `p` as a prefix of its name. -/
def hit (tbl : List cmd_t) (p : List Nat) (c t : Nat) : Bool :=
  match tbl[(c + t) % tbl.length]? with
  | some e => p.isPrefixOf e.cmd
  | none => false

/-- A state in which the next tab completes the line `p`: either the line is `p`
and the previous byte was no tab, or the previous byte was a tab whose anchor is
the end of `p`. -/
def ready (p : List Nat) (s : State) : Prop :=
  s.sequence ≠ 1 ∧
  ((s.prev_char ≠ 9 ∧ s.buf = p ++ List.replicate (MAX_BUF_SIZE - p.length) 0
      ∧ s.buf_ptr = p.length)
   ∨ (s.prev_char = 9 ∧ s.prev_index = p.length ∧ s.buf.take p.length = p))

/-- A table whose only name has 129 bytes, one more than the line buffer holds. -/
def long_tbl : List cmd_t := [⟨List.replicate 129 97, fun _ _ => CLI_OK⟩]

/-- A table whose only name has 128 bytes. -/
def full_tbl : List cmd_t := [⟨List.replicate 128 97, fun _ _ => CLI_OK⟩]

/-- A table of 257 entries: 255 times `x`, then `ab` at index 255 and `ac` at index 256. -/
def wide_tbl : List cmd_t :=
  List.replicate 255 ⟨str "x", fun _ _ => CLI_OK⟩
    ++ [⟨str "ab", fun _ _ => CLI_OK⟩, ⟨str "ac", fun _ _ => CLI_OK⟩]

/-- The line and the statuses at the end of a run of `feed`, when it completes. -/
def line_of (o : Outcome (State × List cli_status_t)) : Option (List Nat × List cli_status_t) :=
  match o with
  | Outcome.ok (s, sts) => some (line s, sts)
  | _ => none

/-- A table with the names `help` and `hep`. -/
def edit_tbl : List cmd_t :=
  [⟨str "help", fun _ _ => CLI_OK⟩, ⟨str "hep", fun _ _ => CLI_OK⟩]

/-- The state at the end of a run, when it completes. -/
def state_of {α : Type} (o : Outcome (State × α)) : Option State :=
  match o with
  | Outcome.ok (s, _) => some s
  | _ => none

/-- The status at the end of a call, when it completes. -/
def status_of (o : Outcome (State × cli_status_t)) : Option cli_status_t :=
  match o with
  | Outcome.ok (_, st) => some st
  | _ => none

/-- A line of thirty one-letter tokens: `a a a ... a`. -/
def thirty_tokens : List Nat := (List.replicate 29 [97, 32]).flatten ++ [97]

/-- A table whose only name is a single tab byte. -/
def tab_tbl : List cmd_t := [⟨[9], fun _ _ => CLI_OK⟩]

/-- The claim's words for the tokens: the maximal runs of non-space bytes of a
buffer, in order, that is the pieces between the spaces without the empty ones. -/
def nonspace_runs (cmd : List Nat) : List (List Nat) :=
  (cmd.splitOnP (fun c => c == 32)).filter (fun t => !t.isEmpty)

/-- The number of table entries that the scanning loop of `cli_complete` examines
(its iterations), with the arguments of `complete_scan`. -/
def scan_steps (tbl : List cmd_t) : Nat → Nat → State → Nat
  | 0, _, _ => 0
  | r + 1, i, s =>
    let j := if i ≥ tbl.length then 0 else i
    match strlen s.buf with
    | none => 1
    | some n =>
      match tbl[j]? with
      | none => 1
      | some e =>
        if checkStringDifference e.cmd s.buf = n then 1
        else 1 + scan_steps tbl r (j + 1) (tab_advance tbl.length s)

/-- The invariant of the line buffer that the code keeps: the buffer has
`MAX_BUF_SIZE` bytes, `buf_ptr` is at most `MAX_BUF_SIZE` and every byte from
`buf_ptr` on is 0. -/
def buf_inv (s : State) : Prop :=
  s.buf.length = MAX_BUF_SIZE ∧ s.buf_ptr ≤ MAX_BUF_SIZE
    ∧ s.buf.drop s.buf_ptr = List.replicate (MAX_BUF_SIZE - s.buf_ptr) 0

/-- A line of thirty tokens: `name` followed by twenty-nine one-letter arguments `x`. -/
def with_args (name : List Nat) : List Nat := name ++ (List.replicate 29 [32, 120]).flatten

/-! ## Theorems -/

/-! ### C strings, tokens -/

theorem cstr_eq_self {l : List Nat} (h : 0 ∉ l) : cstr l = l := by
  unfold cstr
  rw [List.takeWhile_eq_self_iff]
  intro x hx
  have : x ≠ 0 := fun e => h (e ▸ hx)
  simpa using this

theorem zero_not_mem_cstr (l : List Nat) : 0 ∉ cstr l := by
  intro h
  have := List.mem_takeWhile_imp h
  simp at this

theorem cstr_append_zero (l r : List Nat) (h : 0 ∉ l) : cstr (l ++ 0 :: r) = l := by
  induction l with
  | nil => simp [cstr]
  | cons a as ih =>
    have ha : a ≠ 0 := fun e => h (by simp [e])
    have has : 0 ∉ as := fun e => h (List.mem_cons_of_mem _ e)
    have := ih has
    simp only [cstr] at this ⊢
    simp [List.takeWhile_cons, ha, this]

theorem strlen_of_mem (b : List Nat) (h : 0 ∈ b) : strlen b = some (cstr b).length := by
  induction b with
  | nil => simp at h
  | cons a as ih =>
    by_cases ha : a = 0
    · simp [strlen, cstr, ha]
    · have : 0 ∈ as := by
        rcases List.mem_cons.mp h with e | e
        · exact absurd e.symm ha
        · exact e
      simp [strlen, ha, ih this, cstr, List.takeWhile_cons]

theorem take_cstr_length (b : List Nat) : b.take (cstr b).length = cstr b := by
  induction b with
  | nil => simp [cstr]
  | cons a as ih =>
    by_cases ha : a = 0
    · simp [cstr, ha]
    · simp only [cstr] at ih ⊢
      simp [List.takeWhile_cons, ha, ih]

theorem cstr_take_append (l r : List Nat) : cstr (l ++ 0 :: r) = cstr l := by
  induction l with
  | nil => simp [cstr]
  | cons a as ih =>
    by_cases ha : a = 0
    · simp [cstr, ha]
    · simp only [cstr] at ih ⊢
      simp [List.takeWhile_cons, ha, ih]

theorem cstr_set_zero (b : List Nat) (p : Nat) (h : p < b.length) :
    cstr (b.set p 0) = cstr (b.take p) := by
  rw [List.set_eq_take_append_cons_drop, if_pos h, cstr_take_append]

/-- After the terminator is stored the buffer holds the C string of the line. -/
theorem strlen_set_zero (b : List Nat) (p : Nat) (h : p < b.length) :
    strlen (b.set p 0) = some (cstr (b.take p)).length
    ∧ (b.set p 0).take (cstr (b.take p)).length = cstr (b.take p) := by
  have hm : 0 ∈ b.set p 0 := List.mem_iff_getElem.mpr ⟨p, by simpa using h, by simp⟩
  have h1 := strlen_of_mem _ hm
  have h2 := take_cstr_length (b.set p 0)
  rw [cstr_set_zero b p h] at h1 h2
  exact ⟨h1, h2⟩

theorem strcmp_eq_zero_iff (a b : List Nat) : strcmp a b = 0 ↔ cstr a = cstr b := by
  induction a generalizing b with
  | nil =>
    cases b with
    | nil => simp [strcmp]
    | cons y ys =>
      by_cases hy : y = 0
      · simp [strcmp, cstr, hy]
      · simp [strcmp, cstr, hy, List.takeWhile_cons]
  | cons x xs ih =>
    cases b with
    | nil =>
      by_cases hx : x = 0
      · simp [strcmp, cstr, hx]
      · simp [strcmp, cstr, hx, List.takeWhile_cons]
    | cons y ys =>
      by_cases hx : x = 0
      · by_cases hy : y = 0
        · simp [strcmp, cstr, hx, hy]
        · have : (0 : Int) - (y : Int) ≠ 0 := by omega
          simp [strcmp, cstr, hx, hy, List.takeWhile_cons, Ne.symm hy]
      · by_cases hy : y = 0
        · simp [strcmp, cstr, hx, hy, List.takeWhile_cons]
        · by_cases hxy : x = y
          · subst hxy
            have := ih ys
            simp only [cstr] at this
            simp [strcmp, cstr, hx, List.takeWhile_cons, this]
          · have : (x : Int) - (y : Int) ≠ 0 := by omega
            simp [strcmp, cstr, hx, hy, hxy, List.takeWhile_cons, this]

theorem tok_walk_length_le (k : Nat) (o : Option (List Nat × List Nat)) :
    (tok_walk k o).length ≤ k := by
  induction k generalizing o with
  | zero => cases o <;> simp [tok_walk]
  | succ k ih =>
    cases o with
    | none => simp [tok_walk]
    | some tr =>
      obtain ⟨t, r⟩ := tr
      simp only [tok_walk, List.length_cons]
      have := ih (strtok r)
      omega

theorem strtok_nil : strtok [] = none := rfl

theorem strtok_single (name : List Nat) (hne : name ≠ []) (hsp : 32 ∉ name) :
    strtok name = some (name, []) := by
  have h1 : name.dropWhile (fun c => c == 32) = name := by
    cases name with
    | nil => exact absurd rfl hne
    | cons a as =>
      have : a ≠ 32 := fun e => hsp (by simp [e])
      simp [List.dropWhile_cons, this]
  have h2 : name.takeWhile (fun c => c != 32) = name := by
    rw [List.takeWhile_eq_self_iff]
    intro x hx
    have : x ≠ 32 := fun e => hsp (e ▸ hx)
    simpa using this
  have h3 : name.dropWhile (fun c => c != 32) = [] := by
    rw [List.dropWhile_eq_nil_iff]
    intro x hx
    have : x ≠ 32 := fun e => hsp (e ▸ hx)
    simpa using this
  unfold strtok
  rw [h1]
  cases name with
  | nil => exact absurd rfl hne
  | cons a as => simp only [h2, h3, List.drop_nil]

theorem tokenize_single (name : List Nat) (hne : name ≠ []) (hsp : 32 ∉ name) :
    tokenize name = [name] := by
  simp [tokenize, tok_walk, strtok_single name hne hsp, strtok_nil]

/-! ### Ordinary bytes and the capacity of the line buffer -/

theorem take_succ_set (l : List Nat) (n a : Nat) (h : n < l.length) :
    (l.set n a).take (n + 1) = l.take n ++ [a] := by
  rw [List.set_eq_take_append_cons_drop, if_pos h]
  have hl : (l.take n).length = n := List.length_take_of_le (Nat.le_of_lt h)
  rw [List.take_append_eq_append_take, hl]
  simp [List.take_take]

theorem cli_put_ordinary (tbl : List cmd_t) (d : Nat) (s : State) (c : Nat)
    (hc : ordinary c) (hs : s.sequence ≠ 1) :
    cli_put tbl (d + 1) s c =
      if s.buf_ptr < MAX_BUF_SIZE then
        Outcome.ok ({ s with buf := s.buf.set s.buf_ptr c, buf_ptr := s.buf_ptr + 1,
                             out := s.out ++ [Event.print [c]], prev_char := c }, CLI_OK)
      else Outcome.ok (s, CLI_E_BUF_FULL) := by
  obtain ⟨h1, h2, h3, h4, h5⟩ := hc
  simp only [cli_put, cli_put_body, cli_print_char]
  simp [hs, h1, h2, h3, h4, h5]

theorem feed_append (tbl : List cmd_t) (d : Nat) (as bs : List Nat) (s : State) :
    feed tbl d s (as ++ bs) =
      match feed tbl d s as with
      | Outcome.ok (s1, st1) =>
        match feed tbl d s1 bs with
        | Outcome.ok (s2, st2) => Outcome.ok (s2, st1 ++ st2)
        | Outcome.fault f => Outcome.fault f
        | Outcome.nofuel => Outcome.nofuel
      | Outcome.fault f => Outcome.fault f
      | Outcome.nofuel => Outcome.nofuel := by
  induction as generalizing s with
  | nil =>
    simp only [List.nil_append, feed]
    cases feed tbl d s bs <;> rfl
  | cons a as ih =>
    simp only [List.cons_append, feed]
    cases h : cli_put tbl d s a with
    | ok r =>
      obtain ⟨s1, st⟩ := r
      simp only [List.append_eq]
      rw [ih s1]
      cases h1 : feed tbl d s1 as with
      | ok r1 =>
        obtain ⟨s2, sts⟩ := r1
        simp only
        cases h2 : feed tbl d s2 bs <;> simp
      | fault f => rfl
      | nofuel => rfl
    | fault f => rfl
    | nofuel => rfl

theorem feed_room (tbl : List cmd_t) (d : Nat) (bs : List Nat) (s : State)
    (hseq : s.sequence ≠ 1) (hlen : s.buf.length = MAX_BUF_SIZE)
    (hroom : s.buf_ptr + bs.length ≤ MAX_BUF_SIZE) (hbs : ∀ c ∈ bs, ordinary c) :
    ∃ s1, feed tbl (d + 1) s bs = Outcome.ok (s1, List.replicate bs.length CLI_OK)
      ∧ line s1 = line s ++ bs ∧ s1.buf_ptr = s.buf_ptr + bs.length
      ∧ s1.out = s.out ++ bs.map (fun c => Event.print [c])
      ∧ s1.sequence = s.sequence ∧ s1.buf.length = MAX_BUF_SIZE := by
  induction bs generalizing s with
  | nil => exact ⟨s, by simp [feed, hlen]⟩
  | cons c cs ih =>
    have hc : ordinary c := hbs c (List.mem_cons_self _ _)
    simp only [List.length_cons] at hroom
    have hlt : s.buf_ptr < MAX_BUF_SIZE := by omega
    obtain ⟨s1, h1, h2, h3, h4, h5, h6⟩ :=
      ih { s with buf := s.buf.set s.buf_ptr c, buf_ptr := s.buf_ptr + 1,
                  out := s.out ++ [Event.print [c]], prev_char := c }
        hseq (by simp [hlen]) (by simp only; omega)
        (fun x hx => hbs x (List.mem_cons_of_mem _ hx))
    refine ⟨s1, ?_, ?_, ?_, ?_, h5, h6⟩
    · simp only [feed, cli_put_ordinary tbl d s c hc hseq, if_pos hlt, h1, List.length_cons,
        List.replicate_succ]
    · rw [h2]
      simp only [line]
      rw [take_succ_set _ _ _ (by rw [hlen]; exact hlt)]
      simp
    · rw [h3]; simp only [List.length_cons]; omega
    · rw [h4]; simp

theorem feed_full (tbl : List cmd_t) (d : Nat) (bs : List Nat) (s : State)
    (hseq : s.sequence ≠ 1) (hfull : ¬ s.buf_ptr < MAX_BUF_SIZE) (hbs : ∀ c ∈ bs, ordinary c) :
    feed tbl (d + 1) s bs = Outcome.ok (s, List.replicate bs.length CLI_E_BUF_FULL) := by
  induction bs with
  | nil => rfl
  | cons c cs ih =>
    have hc : ordinary c := hbs c (List.mem_cons_self _ _)
    simp only [feed, cli_put_ordinary tbl d s c hc hseq, if_neg hfull,
      ih (fun x hx => hbs x (List.mem_cons_of_mem _ hx)), List.length_cons, List.replicate_succ]

/-- C1: from an empty line outside escape mode, ordinary bytes fed without a
terminator are appended and echoed with status `CLI_OK` up to `MAX_BUF_SIZE` of
them; every later byte gets `CLI_E_BUF_FULL` and leaves the whole state as it
was after the first `MAX_BUF_SIZE` bytes; the length never exceeds `MAX_BUF_SIZE`. -/
theorem C1_capacity (tbl : List cmd_t) (d : Nat) (s : State) (bs : List Nat)
    (hempty : s.buf_ptr = 0) (hseq : s.sequence ≠ 1) (hlen : s.buf.length = MAX_BUF_SIZE)
    (hbs : ∀ c ∈ bs, ordinary c) :
    ∃ s1,
      feed tbl (d + 1) s (bs.take MAX_BUF_SIZE)
          = Outcome.ok (s1, List.replicate (min bs.length MAX_BUF_SIZE) CLI_OK)
      ∧ feed tbl (d + 1) s bs
          = Outcome.ok (s1, List.replicate (min bs.length MAX_BUF_SIZE) CLI_OK
              ++ List.replicate (bs.length - MAX_BUF_SIZE) CLI_E_BUF_FULL)
      ∧ line s1 = bs.take MAX_BUF_SIZE
      ∧ s1.buf_ptr = min bs.length MAX_BUF_SIZE
      ∧ s1.buf_ptr ≤ MAX_BUF_SIZE
      ∧ s1.out = s.out ++ (bs.take MAX_BUF_SIZE).map (fun c => Event.print [c]) := by
  have hT : ∀ c ∈ bs.take MAX_BUF_SIZE, ordinary c := fun c hc => hbs c (List.mem_of_mem_take hc)
  have hD : ∀ c ∈ bs.drop MAX_BUF_SIZE, ordinary c := fun c hc => hbs c (List.mem_of_mem_drop hc)
  have hTl : (bs.take MAX_BUF_SIZE).length = min bs.length MAX_BUF_SIZE := by
    rw [List.length_take, Nat.min_comm]
  obtain ⟨s1, h1, h2, h3, h4, h5, _⟩ :=
    feed_room tbl d (bs.take MAX_BUF_SIZE) s hseq hlen (by rw [hempty, hTl]; omega) hT
  rw [hTl] at h1 h3
  rw [hempty] at h3
  refine ⟨s1, h1, ?_, ?_, by omega, by omega, h4⟩
  · have hfull := feed_full tbl d (bs.drop MAX_BUF_SIZE) s1 (by rw [h5]; exact hseq)
    by_cases hle : bs.length ≤ MAX_BUF_SIZE
    · have e1 : bs.take MAX_BUF_SIZE = bs := List.take_of_length_le hle
      rw [e1] at h1
      rw [h1, Nat.sub_eq_zero_of_le hle]
      simp
    · have hf := hfull (by rw [h3]; omega) hD
      have e := feed_append tbl (d + 1) (bs.take MAX_BUF_SIZE) (bs.drop MAX_BUF_SIZE) s
      rw [List.take_append_drop, h1] at e
      simp only [hf] at e
      rw [e, List.length_drop]
  · rw [h2]; simp [line, hempty]

theorem C1_capacity_witness :
    cli_init.buf_ptr = 0 ∧ cli_init.sequence ≠ 1 ∧ cli_init.buf.length = MAX_BUF_SIZE
    ∧ (∀ c ∈ List.replicate 130 97, ordinary c)
    ∧ ∃ s1,
      feed [] 1 cli_init ((List.replicate 130 97).take MAX_BUF_SIZE)
          = Outcome.ok (s1, List.replicate (min (List.replicate 130 97).length MAX_BUF_SIZE) CLI_OK)
      ∧ feed [] 1 cli_init (List.replicate 130 97)
          = Outcome.ok (s1, List.replicate (min (List.replicate 130 97).length MAX_BUF_SIZE) CLI_OK
              ++ List.replicate ((List.replicate 130 97).length - MAX_BUF_SIZE) CLI_E_BUF_FULL)
      ∧ line s1 = (List.replicate 130 97).take MAX_BUF_SIZE
      ∧ s1.buf_ptr = min (List.replicate 130 97).length MAX_BUF_SIZE
      ∧ s1.buf_ptr ≤ MAX_BUF_SIZE
      ∧ s1.out = cli_init.out
          ++ ((List.replicate 130 97).take MAX_BUF_SIZE).map (fun c => Event.print [c]) :=
  have h : ∀ c ∈ List.replicate 130 97, ordinary c := by
    intro c hc
    rw [List.eq_of_mem_replicate hc]
    decide
  ⟨rfl, by decide, rfl, h, C1_capacity [] 0 cli_init (List.replicate 130 97) rfl (by decide) rfl h⟩

/-! ### The table scan and the dispatcher -/

theorem scan_tbl_found (argc : Nat) (a0 : List Nat) (rest : List (List Nat)) :
    ∀ (tbl : List cmd_t) (k i : Nat) (e : cmd_t) (s : State),
      tbl[i]? = some e → cstr a0 = cstr e.cmd →
      (∀ j, j < i → ∀ e1, tbl[j]? = some e1 → cstr a0 ≠ cstr e1.cmd) →
      scan_tbl argc (a0 :: rest) tbl k s
        = Outcome.ok ({ s with out := s.out ++ [Event.call (k + i) argc (a0 :: rest)] },
            e.func argc (a0 :: rest)) := by
  intro tbl
  induction tbl with
  | nil => intro k i e s h; simp at h
  | cons x xs ih =>
    intro k i e s h hm hf
    cases i with
    | zero =>
      simp only [List.getElem?_cons_zero, Option.some.injEq] at h
      subst h
      have : strcmp a0 x.cmd = 0 := (strcmp_eq_zero_iff _ _).mpr hm
      simp [scan_tbl, this]
    | succ i =>
      simp only [List.getElem?_cons_succ] at h
      have hx : ¬ strcmp a0 x.cmd = 0 := fun h0 =>
        hf 0 (Nat.succ_pos _) x (by simp) ((strcmp_eq_zero_iff _ _).mp h0)
      have := ih (k + 1) i e s h hm (fun j hj e1 he1 => hf (j + 1) (by omega) e1 (by simpa using he1))
      simp only [scan_tbl, List.head?_cons, hx, if_false, this]
      have e1 : k + 1 + i = k + (i + 1) := by omega
      rw [e1]

theorem scan_tbl_not_found (argc : Nat) (a0 : List Nat) (rest : List (List Nat)) :
    ∀ (tbl : List cmd_t) (k : Nat) (s : State),
      (∀ e ∈ tbl, cstr a0 ≠ cstr e.cmd) →
      scan_tbl argc (a0 :: rest) tbl k s
        = Outcome.ok (cli_println s cli_unrecog, CLI_E_CMD_NOT_FOUND) := by
  intro tbl
  induction tbl with
  | nil => intro k s _; rfl
  | cons x xs ih =>
    intro k s h
    have hx : ¬ strcmp a0 x.cmd = 0 := fun h0 =>
      h x (List.mem_cons_self _ _) ((strcmp_eq_zero_iff _ _).mp h0)
    simp only [scan_tbl, List.head?_cons, hx, if_false]
    exact ih (k + 1) s (fun e he => h e (List.mem_cons_of_mem _ he))

/-- The scan touches nothing but the trace. -/
theorem scan_tbl_ok (argc : Nat) (argv : List (List Nat)) :
    ∀ (tbl : List cmd_t) (k : Nat) (s : State), (argv ≠ [] ∨ tbl = []) →
      ∃ s1 st, scan_tbl argc argv tbl k s = Outcome.ok (s1, st)
        ∧ s1 = { s with out := s1.out } := by
  intro tbl
  induction tbl with
  | nil => intro k s _; exact ⟨_, _, rfl, rfl⟩
  | cons x xs ih =>
    intro k s h
    cases argv with
    | nil => simp at h
    | cons a0 rest =>
      by_cases hx : strcmp a0 x.cmd = 0
      · refine ⟨{ s with out := s.out ++ [Event.call k argc (a0 :: rest)] },
          x.func argc (a0 :: rest), ?_, rfl⟩
        simp only [scan_tbl, List.head?_cons, hx, if_true]
      · obtain ⟨s1, st, h1, h2⟩ := ih (k + 1) s (Or.inl (by simp))
        exact ⟨s1, st, by simp only [scan_tbl, List.head?_cons, hx, if_false, h1], h2⟩

theorem scan_tbl_frame (argc : Nat) (argv : List (List Nat)) :
    ∀ (tbl : List cmd_t) (k : Nat) (s s1 : State) (st : cli_status_t),
      scan_tbl argc argv tbl k s = Outcome.ok (s1, st) → s1 = { s with out := s1.out } := by
  intro tbl
  induction tbl with
  | nil =>
    intro k s s1 st h
    simp only [scan_tbl, Outcome.ok.injEq, Prod.mk.injEq] at h
    rw [← h.1]; rfl
  | cons x xs ih =>
    intro k s s1 st h
    cases argv with
    | nil => simp [scan_tbl] at h
    | cons a0 rest =>
      by_cases hx : strcmp a0 x.cmd = 0
      · simp only [scan_tbl, List.head?_cons, hx, if_true, Outcome.ok.injEq, Prod.mk.injEq] at h
        rw [← h.1]
      · simp only [scan_tbl, List.head?_cons, hx, if_false] at h
        exact ih (k + 1) s s1 st h

theorem cli_process_ok (tbl : List cmd_t) (s : State)
    (h : tokenize s.cmd_buf ≠ [] ∨ tbl = []) (h30 : (tokenize s.cmd_buf).length < 30) :
    ∃ s1 st, cli_process tbl s = Outcome.ok (s1, st)
      ∧ s1 = { s with tab_index := 0, out := s1.out } := by
  obtain ⟨s1, st, h1, h2⟩ :=
    scan_tbl_ok (tokenize s.cmd_buf).length (tokenize s.cmd_buf) tbl 0 { s with tab_index := 0 } h
  refine ⟨s1, st, ?_, h2⟩
  simp only [cli_process, Nat.not_le.mpr h30, if_false, h1]

theorem cli_process_frame (tbl : List cmd_t) (s s1 : State) (st : cli_status_t)
    (h : cli_process tbl s = Outcome.ok (s1, st)) :
    s1 = { s with tab_index := 0, out := s1.out } := by
  unfold cli_process at h
  simp only at h
  split at h
  · exact absurd h (by simp)
  · exact scan_tbl_frame _ _ _ _ _ _ _ h

/-! ### The dispatcher on a tokenized buffer -/

theorem cli_process_found (tbl : List cmd_t) (s : State) (a0 : List Nat)
    (rest : List (List Nat)) (i : Nat) (e : cmd_t)
    (htok : tokenize s.cmd_buf = a0 :: rest) (h30 : rest.length + 1 < 30)
    (hi : tbl[i]? = some e) (hm : cstr a0 = cstr e.cmd)
    (hfirst : ∀ j, j < i → ∀ e1, tbl[j]? = some e1 → cstr a0 ≠ cstr e1.cmd) :
    cli_process tbl s
      = Outcome.ok ({ s with tab_index := 0,
                             out := s.out ++ [Event.call i (rest.length + 1) (a0 :: rest)] },
          e.func (rest.length + 1) (a0 :: rest)) := by
  have hs := scan_tbl_found (rest.length + 1) a0 rest tbl 0 i e { s with tab_index := 0 }
    hi hm hfirst
  rw [Nat.zero_add] at hs
  simp only [cli_process, htok, List.length_cons, Nat.not_le.mpr h30, if_false]
  exact hs

theorem cli_process_not_found (tbl : List cmd_t) (s : State) (a0 : List Nat)
    (rest : List (List Nat))
    (htok : tokenize s.cmd_buf = a0 :: rest) (h30 : rest.length + 1 < 30)
    (hno : ∀ e ∈ tbl, cstr a0 ≠ cstr e.cmd) :
    cli_process tbl s
      = Outcome.ok ({ s with tab_index := 0, out := s.out ++ [Event.println cli_unrecog] },
          CLI_E_CMD_NOT_FOUND) := by
  have hs := scan_tbl_not_found (rest.length + 1) a0 rest tbl 0 { s with tab_index := 0 } hno
  simp only [cli_process, htok, List.length_cons, Nat.not_le.mpr h30, if_false]
  exact hs

/-! ### The terminator -/

theorem finalize_cmd_buf (s : State) (hlen : s.buf.length = MAX_BUF_SIZE)
    (hp : s.buf_ptr < MAX_BUF_SIZE) :
    (finalize s (cstr (line s)).length).cmd_buf = cstr (line s) := by
  have := (strlen_set_zero s.buf s.buf_ptr (by rw [hlen]; exact hp)).2
  simpa [finalize, cli_print_char, line] using this

theorem cli_put_terminator (tbl : List cmd_t) (d : Nat) (s : State)
    (hesc : s.sequence = 1 → s.sequence_char = 13) (hlen : s.buf.length = MAX_BUF_SIZE)
    (hp : s.buf_ptr < MAX_BUF_SIZE) :
    cli_put tbl (d + 1) s 13 =
      match cli_process tbl (finalize s (cstr (line s)).length) with
      | Outcome.ok (s3, _) =>
        Outcome.ok ({ s3 with buf := List.replicate MAX_BUF_SIZE 0,
                              out := s3.out ++ [Event.print cli_prompt],
                              prev_char := 13 }, CLI_OK)
      | Outcome.fault f => Outcome.fault f
      | Outcome.nofuel => Outcome.nofuel := by
  have h1 := (strlen_set_zero s.buf s.buf_ptr (by rw [hlen]; exact hp)).1
  have c1 : ¬ (s.sequence = 1 ∧ s.sequence_char = 0) := fun h => by
    have := hesc h.1
    omega
  have c2 : ¬ (13 ≠ s.sequence_char ∧ s.sequence = 1) := fun h => h.1 (hesc h.2).symm
  simp only [cli_put, cli_put_body, c1, c2, if_false, if_true, hp, h1, line, cli_print]
  simp

/-- Whatever status `cli_process` returns for a line that leaves room for the
terminator, the `cli_put` call for the terminator returns `CLI_OK`. -/
theorem terminator_discards (tbl : List cmd_t) (d : Nat) (s s2 : State) (st : cli_status_t)
    (hseq : s.sequence ≠ 1) (hlen : s.buf.length = MAX_BUF_SIZE) (hp : s.buf_ptr < MAX_BUF_SIZE)
    (h : cli_process tbl (finalize s (cstr (line s)).length) = Outcome.ok (s2, st)) :
    cli_put tbl (d + 1) s 13
      = Outcome.ok ({ s2 with buf := List.replicate MAX_BUF_SIZE 0,
                              out := s2.out ++ [Event.print cli_prompt],
                              prev_char := 13 }, CLI_OK) := by
  rw [cli_put_terminator tbl d s (fun h => absurd h hseq) hlen hp, h]

/-- A line whose first token is no name of the table: `cli_process` returns
`CLI_E_CMD_NOT_FOUND` and the `cli_put` call for the terminator returns `CLI_OK`. -/
theorem terminator_not_found (tbl : List cmd_t) (d : Nat) (s : State)
    (hseq : s.sequence ≠ 1) (hlen : s.buf.length = MAX_BUF_SIZE)
    (hp : s.buf_ptr < MAX_BUF_SIZE)
    (htok : tokenize (cstr (line s)) ≠ [] ∨ tbl = [])
    (h30 : (tokenize (cstr (line s))).length < 30)
    (hno : ∀ a0 ∈ (tokenize (cstr (line s))).head?, ∀ e ∈ tbl, cstr a0 ≠ cstr e.cmd) :
    ∃ s2 s1, cli_process tbl (finalize s (cstr (line s)).length)
        = Outcome.ok (s2, CLI_E_CMD_NOT_FOUND)
      ∧ cli_put tbl (d + 1) s 13 = Outcome.ok (s1, CLI_OK) := by
  have hc := finalize_cmd_buf s hlen hp
  have hproc : ∃ s2, cli_process tbl (finalize s (cstr (line s)).length)
      = Outcome.ok (s2, CLI_E_CMD_NOT_FOUND) := by
    cases htk : tokenize (cstr (line s)) with
    | nil =>
      have ht : tbl = [] := by
        rcases htok with h | h
        · exact absurd htk h
        · exact h
      subst ht
      have h0 : cli_process [] (finalize s (cstr (line s)).length)
          = Outcome.ok (cli_println { (finalize s (cstr (line s)).length) with tab_index := 0 }
              cli_unrecog, CLI_E_CMD_NOT_FOUND) := by
        simp [cli_process, hc, htk, scan_tbl]
      exact ⟨_, h0⟩
    | cons a0 rest =>
      rw [htk] at h30 hno
      exact ⟨_, cli_process_not_found tbl _ a0 rest (by rw [hc]; exact htk) h30
        (hno a0 (by simp))⟩
  obtain ⟨s2, h2⟩ := hproc
  exact ⟨s2, _, h2, terminator_discards tbl d s s2 _ hseq hlen hp h2⟩

/-- C2, in the form that holds of the code. Take any command table and any line
entered outside escape mode that is shorter than `MAX_BUF_SIZE` and has between
1 and 29 tokens (or no token, with an empty table). Then `cli_process` returns a
status for the line and the `cli_put` call for the terminator returns `CLI_OK`
whatever that status is. When the first token is no name of the table,
`cli_process` returns `CLI_E_CMD_NOT_FOUND` and `cli_put` returns `CLI_OK`; when
the first token is the name of entry `i` and of no earlier entry, `cli_process`
returns the status of the handler of entry `i`, whatever it is, and `cli_put`
returns `CLI_OK`. Feeding `xyzzy` and the terminator from the initial state, with
a table that has no entry `xyzzy`, yields `CLI_OK` six times while `cli_process`
returns `CLI_E_CMD_NOT_FOUND`. -/
theorem C2_terminator_status (tbl : List cmd_t) (d : Nat) (s : State)
    (hseq : s.sequence ≠ 1) (hlen : s.buf.length = MAX_BUF_SIZE)
    (hp : s.buf_ptr < MAX_BUF_SIZE)
    (htok : tokenize (cstr (line s)) ≠ [] ∨ tbl = [])
    (h30 : (tokenize (cstr (line s))).length < 30) :
    (∃ s2 st, cli_process tbl (finalize s (cstr (line s)).length) = Outcome.ok (s2, st)
        ∧ cli_put tbl (d + 1) s 13
          = Outcome.ok ({ s2 with buf := List.replicate MAX_BUF_SIZE 0,
                                  out := s2.out ++ [Event.print cli_prompt],
                                  prev_char := 13 }, CLI_OK))
    ∧ ((∀ a0 ∈ (tokenize (cstr (line s))).head?, ∀ e ∈ tbl, cstr a0 ≠ cstr e.cmd) →
        ∃ s2 s1, cli_process tbl (finalize s (cstr (line s)).length)
            = Outcome.ok (s2, CLI_E_CMD_NOT_FOUND)
          ∧ cli_put tbl (d + 1) s 13 = Outcome.ok (s1, CLI_OK))
    ∧ (∀ (a0 : List Nat) (rest : List (List Nat)) (i : Nat) (e : cmd_t),
        tokenize (cstr (line s)) = a0 :: rest → tbl[i]? = some e →
        cstr a0 = cstr e.cmd →
        (∀ j, j < i → ∀ e1, tbl[j]? = some e1 → cstr a0 ≠ cstr e1.cmd) →
        ∃ s2 s1, cli_process tbl (finalize s (cstr (line s)).length)
            = Outcome.ok (s2, e.func (rest.length + 1) (a0 :: rest))
          ∧ cli_put tbl (d + 1) s 13 = Outcome.ok (s1, CLI_OK))
    ∧ ((∀ e ∈ tbl, cstr (str "xyzzy") ≠ cstr e.cmd) →
        ∃ s0 s2 s1, feed tbl (d + 1) cli_init (str "xyzzy")
            = Outcome.ok (s0, List.replicate 5 CLI_OK)
          ∧ cli_process tbl (finalize s0 (cstr (line s0)).length)
            = Outcome.ok (s2, CLI_E_CMD_NOT_FOUND)
          ∧ feed tbl (d + 1) cli_init (str "xyzzy" ++ [13])
            = Outcome.ok (s1, List.replicate 6 CLI_OK)) := by
  have hc := finalize_cmd_buf s hlen hp
  refine ⟨?_, ?_, ?_, ?_⟩
  · obtain ⟨s2, st, h, _⟩ := cli_process_ok tbl (finalize s (cstr (line s)).length)
      (by rw [hc]; exact htok) (by rw [hc]; exact h30)
    exact ⟨s2, st, h, terminator_discards tbl d s s2 st hseq hlen hp h⟩
  · exact terminator_not_found tbl d s hseq hlen hp htok h30
  · intro a0 rest i e htk hi hm hfirst
    rw [htk] at h30
    have h := cli_process_found tbl (finalize s (cstr (line s)).length) a0 rest i e
      (by rw [hc]; exact htk) h30 hi hm hfirst
    exact ⟨_, _, h, terminator_discards tbl d s _ _ hseq hlen hp h⟩
  · intro hno
    have hord : ∀ c ∈ str "xyzzy", ordinary c := by decide
    obtain ⟨s0, f0, l0, p0, _, q0, b0⟩ :=
      feed_room tbl d (str "xyzzy") cli_init (by decide) rfl (by decide) hord
    have hl : line s0 = str "xyzzy" := by rw [l0]; rfl
    have hp0 : s0.buf_ptr < MAX_BUF_SIZE := by rw [p0]; decide
    have hq0 : s0.sequence ≠ 1 := by rw [q0]; decide
    have htk : tokenize (cstr (line s0)) = [str "xyzzy"] := by rw [hl]; rfl
    obtain ⟨s2, s1, h2, h1⟩ := terminator_not_found tbl d s0 hq0 b0 hp0
      (by rw [htk]; exact Or.inl (by simp)) (by rw [htk]; decide)
      (by
        rw [htk]
        intro a0 ha e he
        simp only [List.head?_cons, Option.mem_def, Option.some.injEq] at ha
        subst ha
        exact hno e he)
    refine ⟨s0, s2, s1, f0, h2, ?_⟩
    rw [feed_append, f0]
    simp only [feed, h1]
    rfl

theorem C2_terminator_status_witness :
    (with_line (str "stop")).sequence ≠ 1
    ∧ (with_line (str "stop")).buf.length = MAX_BUF_SIZE
    ∧ (with_line (str "stop")).buf_ptr < MAX_BUF_SIZE
    ∧ (tokenize (cstr (line (with_line (str "stop")))) ≠ [] ∨ demo_tbl = [])
    ∧ (tokenize (cstr (line (with_line (str "stop"))))).length < 30
    ∧ ∃ s2 s1, cli_process demo_tbl (finalize (with_line (str "stop")) 4)
          = Outcome.ok (s2, CLI_E_IO)
        ∧ cli_put demo_tbl (0 + 1) (with_line (str "stop")) 13 = Outcome.ok (s1, CLI_OK) :=
  ⟨by decide, rfl, by decide, Or.inl (by decide), by decide,
    (C2_terminator_status demo_tbl 0 (with_line (str "stop")) (by decide) rfl (by decide)
      (Or.inl (by decide)) (by decide)).2.2.1 (str "stop") [] 1 ⟨str "stop", fun _ _ => CLI_E_IO⟩
      (by decide) rfl (by decide)
      (by
        intro j hj e1 he1
        have hj0 : j = 0 := by omega
        subst hj0
        simp only [demo_tbl, List.getElem?_cons_zero, Option.some.injEq] at he1
        subst he1
        decide)⟩

/-- C2, the status is not propagated: for the line `xyzzy` and an empty table `cli_process`
returns `CLI_E_CMD_NOT_FOUND` while the `cli_put` call for the terminator returns
`CLI_OK`; and for the line `fail`, whose handler returns `CLI_E_IO`, `cli_process`
returns `CLI_E_IO` while `cli_put` returns `CLI_OK`. -/
theorem C2_counterexample :
    (∃ s0 s1 s2,
      feed [] 1 cli_init (str "xyzzy") = Outcome.ok (s0, List.replicate 5 CLI_OK)
      ∧ cli_process [] (finalize s0 5) = Outcome.ok (s2, CLI_E_CMD_NOT_FOUND)
      ∧ cli_put [] 1 s0 13 = Outcome.ok (s1, CLI_OK))
    ∧ (∃ s0 s1 s2,
      feed [⟨str "fail", fun _ _ => CLI_E_IO⟩] 1 cli_init (str "fail")
        = Outcome.ok (s0, List.replicate 4 CLI_OK)
      ∧ cli_process [⟨str "fail", fun _ _ => CLI_E_IO⟩] (finalize s0 4)
        = Outcome.ok (s2, CLI_E_IO)
      ∧ cli_put [⟨str "fail", fun _ _ => CLI_E_IO⟩] 1 s0 13 = Outcome.ok (s1, CLI_OK)) :=
  ⟨⟨_, _, _, rfl, rfl, rfl⟩, ⟨_, _, _, rfl, rfl, rfl⟩⟩

/-! ### Round trip of a command name -/

theorem printable_ordinary {c : Nat} (h : printable c) : ordinary c := by
  unfold printable at h
  unfold ordinary
  omega

/-- Below the capacity of the line buffer a registered name made of printable
non-space bytes, followed by the terminator, reaches the handler of the first
entry with that name, once, with `argc = 1` and `argv = [name]`. -/
theorem roundtrip_below_capacity (tbl : List cmd_t) (d : Nat) (s : State) (name : List Nat)
    (i : Nat) (e : cmd_t)
    (hempty : s.buf_ptr = 0) (hseq : s.sequence ≠ 1) (hlen : s.buf.length = MAX_BUF_SIZE)
    (hne : name ≠ []) (hlt : name.length < MAX_BUF_SIZE)
    (hpr : ∀ c ∈ name, printable c ∧ c ≠ 32)
    (hi : tbl[i]? = some e) (hname : cstr e.cmd = name)
    (hfirst : ∀ j, j < i → ∀ e1, tbl[j]? = some e1 → cstr e1.cmd ≠ name) :
    ∃ s1, feed tbl (d + 1) s (name ++ [13])
        = Outcome.ok (s1, List.replicate (name.length + 1) CLI_OK)
      ∧ s1.out = s.out ++ name.map (fun c => Event.print [c])
          ++ [Event.print [13], Event.print [10], Event.call i 1 [name],
              Event.print cli_prompt] := by
  have hord : ∀ c ∈ name, ordinary c := fun c hc => printable_ordinary (hpr c hc).1
  have h0 : 0 ∉ name := fun h => by have := (hpr 0 h).1; unfold printable at this; omega
  have h32 : 32 ∉ name := fun h => (hpr 32 h).2 rfl
  obtain ⟨s1, f1, l1, p1, o1, q1, b1⟩ :=
    feed_room tbl d name s hseq hlen (by rw [hempty]; omega) hord
  have hl : line s1 = name := by rw [l1]; simp [line, hempty]
  have hp1 : s1.buf_ptr < MAX_BUF_SIZE := by rw [p1, hempty]; omega
  have hq1 : s1.sequence ≠ 1 := by rw [q1]; exact hseq
  have hcs : cstr (line s1) = name := by rw [hl]; exact cstr_eq_self h0
  have hcmd := finalize_cmd_buf s1 b1 hp1
  rw [hcs] at hcmd
  have hproc := cli_process_found tbl (finalize s1 name.length) name [] i e
    (by rw [hcmd]; exact tokenize_single name hne h32) (by simp) hi
    (by rw [hname]; exact cstr_eq_self h0)
    (fun j hj e1 he1 h => hfirst j hj e1 he1 (by rw [← h]; exact cstr_eq_self h0))
  have hput := cli_put_terminator tbl d s1 (fun h => absurd h hq1) b1 hp1
  rw [hcs, hproc] at hput
  simp only at hput
  refine ⟨({ (finalize s1 name.length) with
      tab_index := 0, prev_char := 13, buf := List.replicate MAX_BUF_SIZE 0,
      out := (finalize s1 name.length).out ++ [Event.call i 1 [name]]
        ++ [Event.print cli_prompt] } : State), ?_, ?_⟩
  · rw [feed_append, f1]
    simp only [feed, hput]
    simp [List.replicate_succ']
  · simp [finalize, cli_print_char, o1]

/-- C3, beyond the capacity: for a registered name of `MAX_BUF_SIZE` bytes the
terminator is stored at `buf[128]`, outside the buffer, and for a registered
empty name `strcmp` is called on a null `argv[0]`; no handler is reached. -/
theorem C3_failing_input :
    feed [⟨List.replicate 128 97, fun _ _ => CLI_OK⟩] 1 cli_init (List.replicate 128 97 ++ [13])
      = Outcome.fault Fault.buf_store
    ∧ feed [⟨[], fun _ _ => CLI_OK⟩] 1 cli_init ([] ++ [13]) = Outcome.fault Fault.null_argv := by
  constructor <;> rfl

/-! ### Dispatch: first exact match, or the fixed message -/

/-- Dispatch of a registered name. For a command buffer with at least one token
the table scan invokes the handler of the first entry whose name is equal to
`argv[0]` as a C string (the test `strcmp = 0` is equality of the two strings, so
neither a proper prefix nor a proper extension matches), passes it
`(argc, argv)`, adds no other call to the trace and returns the status of that
handler; `cli_process` as a whole does so for every buffer of 1 to 29 tokens. -/
theorem dispatch_first_match (tbl : List cmd_t) (s : State) (a0 : List Nat)
    (rest : List (List Nat)) (i : Nat) (e : cmd_t)
    (htok : tokenize s.cmd_buf = a0 :: rest)
    (hi : tbl[i]? = some e) (hm : cstr a0 = cstr e.cmd)
    (hfirst : ∀ j, j < i → ∀ e1, tbl[j]? = some e1 → cstr a0 ≠ cstr e1.cmd) :
    scan_tbl (tokenize s.cmd_buf).length (tokenize s.cmd_buf) tbl 0 { s with tab_index := 0 }
      = Outcome.ok ({ s with tab_index := 0,
                             out := s.out ++ [Event.call i (rest.length + 1) (a0 :: rest)] },
          e.func (rest.length + 1) (a0 :: rest))
    ∧ (rest.length + 1 < 30 →
        cli_process tbl s
          = Outcome.ok ({ s with tab_index := 0,
                                 out := s.out ++ [Event.call i (rest.length + 1) (a0 :: rest)] },
              e.func (rest.length + 1) (a0 :: rest)))
    ∧ (∀ name, strcmp a0 name = 0 ↔ cstr a0 = cstr name) := by
  refine ⟨?_, ?_, fun name => strcmp_eq_zero_iff a0 name⟩
  · have hs := scan_tbl_found (rest.length + 1) a0 rest tbl 0 i e { s with tab_index := 0 }
      hi hm hfirst
    rw [Nat.zero_add] at hs
    rw [htok]
    exact hs
  · intro h30
    exact cli_process_found tbl s a0 rest i e htok h30 hi hm hfirst

theorem dispatch_first_match_example :
    tokenize (with_cmd (str "stop now")).cmd_buf = str "stop" :: [str "now"]
    ∧ demo_tbl[1]? = some ⟨str "stop", fun _ _ => CLI_E_IO⟩
    ∧ cli_process demo_tbl (with_cmd (str "stop now"))
        = Outcome.ok ({ with_cmd (str "stop now") with
              tab_index := 0,
              out := (with_cmd (str "stop now")).out
                ++ [Event.call 1 2 [str "stop", str "now"]] }, CLI_E_IO) :=
  ⟨by decide, rfl,
    (dispatch_first_match demo_tbl (with_cmd (str "stop now")) (str "stop") [str "now"] 1
      ⟨str "stop", fun _ _ => CLI_E_IO⟩ (by decide) rfl (by decide)
      (by
        intro j hj e1 he1
        have hj0 : j = 0 := by omega
        subst hj0
        simp only [demo_tbl, List.getElem?_cons_zero, Option.some.injEq] at he1
        subst he1
        decide)).2.1 (by decide)⟩

set_option maxRecDepth 100000 in
/-- C4, at thirty tokens: the buffer `stop x x ... x` (the registered name `stop`
and twenty-nine arguments, 62 bytes, reachable by typing them) has `stop` as its
first token and entry 1 of `demo_tbl` is `stop`, but the tokenizer stores at
`argv[30]` before the scan starts and no handler is reached; with one argument
less the handler of `stop` is invoked with `argc = 29` and its status `CLI_E_IO`
is returned. -/
theorem C4_failing_input :
    (with_args (str "stop")).length = 62
    ∧ (tokenize (with_args (str "stop"))).head? = some (str "stop")
    ∧ (tokenize (with_args (str "stop"))).length = 30
    ∧ demo_tbl.map (fun e => e.cmd) = [str "status", str "stop", str "set"]
    ∧ (state_of (feed demo_tbl 1 cli_init (with_args (str "stop")))).map line
        = some (with_args (str "stop"))
    ∧ cli_process demo_tbl (with_cmd (with_args (str "stop"))) = Outcome.fault Fault.argv_store
    ∧ feed demo_tbl 1 cli_init (with_args (str "stop") ++ [13]) = Outcome.fault Fault.argv_store
    ∧ (tokenize ((with_args (str "stop")).take 60)).length = 29
    ∧ (state_of (cli_process demo_tbl (with_cmd ((with_args (str "stop")).take 60)))).map
          (fun s => s.out)
        = some (cli_init.out
            ++ [Event.call 1 29 (tokenize ((with_args (str "stop")).take 60))])
    ∧ status_of (cli_process demo_tbl (with_cmd ((with_args (str "stop")).take 60)))
        = some CLI_E_IO := by
  refine ⟨rfl, rfl, rfl, rfl, rfl, rfl, rfl, rfl, rfl, rfl⟩

/-- Dispatch of an unknown name. For a command buffer with at least one token
whose `argv[0]` is equal to no name of the table, the scan invokes no handler,
calls `println` once with `"CMD: Command not recognised"`, calls `print` not at
all and returns `CLI_E_CMD_NOT_FOUND`; `cli_process` as a whole does so for
every buffer of 1 to 29 tokens. -/
theorem dispatch_not_found (tbl : List cmd_t) (s : State) (a0 : List Nat)
    (rest : List (List Nat))
    (htok : tokenize s.cmd_buf = a0 :: rest)
    (hno : ∀ e ∈ tbl, cstr a0 ≠ cstr e.cmd) :
    scan_tbl (tokenize s.cmd_buf).length (tokenize s.cmd_buf) tbl 0 { s with tab_index := 0 }
      = Outcome.ok ({ s with tab_index := 0,
                             out := s.out ++ [Event.println cli_unrecog] },
          CLI_E_CMD_NOT_FOUND)
    ∧ (rest.length + 1 < 30 →
        cli_process tbl s
          = Outcome.ok ({ s with tab_index := 0,
                                 out := s.out ++ [Event.println cli_unrecog] },
              CLI_E_CMD_NOT_FOUND))
    ∧ cli_unrecog = str "CMD: Command not recognised" := by
  refine ⟨?_, ?_, by decide⟩
  · rw [htok]
    exact scan_tbl_not_found (rest.length + 1) a0 rest tbl 0 { s with tab_index := 0 } hno
  · intro h30
    exact cli_process_not_found tbl s a0 rest htok h30 hno

theorem dispatch_not_found_example :
    tokenize (with_cmd (str "xyzzy")).cmd_buf = str "xyzzy" :: []
    ∧ (∀ e ∈ demo_tbl, cstr (str "xyzzy") ≠ cstr e.cmd)
    ∧ cli_process demo_tbl (with_cmd (str "xyzzy"))
        = Outcome.ok ({ with_cmd (str "xyzzy") with
              tab_index := 0,
              out := (with_cmd (str "xyzzy")).out ++ [Event.println cli_unrecog] },
            CLI_E_CMD_NOT_FOUND) :=
  have hno : ∀ e ∈ demo_tbl, cstr (str "xyzzy") ≠ cstr e.cmd := by
    intro e he
    simp only [demo_tbl, List.mem_cons, List.mem_singleton, List.not_mem_nil, or_false] at he
    rcases he with h | h | h <;> subst h <;> decide
  ⟨by decide, hno,
    (dispatch_not_found demo_tbl (with_cmd (str "xyzzy")) (str "xyzzy") [] (by decide) hno).2.1
      (by decide)⟩

set_option maxRecDepth 100000 in
/-- C5, at thirty tokens: the buffer `xyzzy x x ... x` (63 bytes, reachable by
typing them) has the first token `xyzzy`, which is no name of `demo_tbl`, but
the tokenizer stores at `argv[30]` before the scan starts: no `println` call and
no status `CLI_E_CMD_NOT_FOUND` is reached; with one argument less `println` is
called once with the fixed message and `CLI_E_CMD_NOT_FOUND` is returned. -/
theorem C5_failing_input :
    (with_args (str "xyzzy")).length = 63
    ∧ (tokenize (with_args (str "xyzzy"))).head? = some (str "xyzzy")
    ∧ (tokenize (with_args (str "xyzzy"))).length = 30
    ∧ demo_tbl.map (fun e => e.cmd) = [str "status", str "stop", str "set"]
    ∧ (state_of (feed demo_tbl 1 cli_init (with_args (str "xyzzy")))).map line
        = some (with_args (str "xyzzy"))
    ∧ cli_process demo_tbl (with_cmd (with_args (str "xyzzy"))) = Outcome.fault Fault.argv_store
    ∧ feed demo_tbl 1 cli_init (with_args (str "xyzzy") ++ [13])
        = Outcome.fault Fault.argv_store
    ∧ (tokenize ((with_args (str "xyzzy")).take 61)).length = 29
    ∧ (state_of (cli_process demo_tbl (with_cmd ((with_args (str "xyzzy")).take 61)))).map
          (fun s => s.out)
        = some (cli_init.out ++ [Event.println cli_unrecog])
    ∧ status_of (cli_process demo_tbl (with_cmd ((with_args (str "xyzzy")).take 61)))
        = some CLI_E_CMD_NOT_FOUND := by
  refine ⟨rfl, rfl, rfl, rfl, rfl, rfl, rfl, rfl, rfl, rfl⟩

/-! ### Erase -/

theorem dropLast_take (l : List Nat) (n : Nat) (h0 : 0 < n) (hn : n ≤ l.length) :
    (l.take n).dropLast = l.take (n - 1) := by
  rw [List.dropLast_eq_take, List.length_take, Nat.min_eq_left hn, List.take_take]
  congr 1
  omega

theorem take_set_self (l : List Nat) (n a : Nat) : (l.set n a).take n = l.take n := by
  by_cases h : n < l.length
  · rw [List.set_eq_take_append_cons_drop, if_pos h, List.take_append_eq_append_take]
    simp [List.take_take, List.length_take, Nat.min_eq_left (Nat.le_of_lt h)]
  · rw [List.set_eq_of_length_le (by omega)]

/-- C6: outside escape mode an erase byte (`0x7F` or `\b`) on a non-empty line
returns `CLI_OK`, stores 0 over the last character and moves `buf_ptr` back by
one, so the line loses exactly its last character; and `hel`, erase, `p`, `\r`
leaves the command buffer `hep` and dispatches `argv = [hep]` (entry 1 of
`edit_tbl`, not `help`). -/
theorem C6_erase (tbl : List cmd_t) (d : Nat) (s : State) (c : Nat)
    (hc : c = 0x7F ∨ c = 8) (hseq : s.sequence ≠ 1) (hlen : s.buf.length = MAX_BUF_SIZE)
    (hne : 0 < s.buf_ptr) (hle : s.buf_ptr ≤ MAX_BUF_SIZE) :
    (∃ s1, cli_put tbl (d + 1) s c = Outcome.ok (s1, CLI_OK)
      ∧ s1.buf_ptr = s.buf_ptr - 1
      ∧ line s1 = (line s).dropLast
      ∧ s1.buf = s.buf.set (s.buf_ptr - 1) 0
      ∧ (line s1).length + 1 = (line s).length)
    ∧ ∃ s2, feed edit_tbl 1 cli_init (str "hel" ++ [c] ++ str "p\r")
        = Outcome.ok (s2, List.replicate 6 CLI_OK)
      ∧ s2.cmd_buf = str "hep"
      ∧ s2.out = cli_init.out ++ [Event.print (str "h"), Event.print (str "e"),
          Event.print (str "l"), Event.print [c], Event.print (str "p"),
          Event.print [13], Event.print [10], Event.call 1 1 [str "hep"],
          Event.print cli_prompt] := by
  constructor
  · have hp : s.buf_ptr - 1 < MAX_BUF_SIZE := by omega
    have hc13 : c ≠ 13 := by rcases hc with h | h <;> omega
    have hc1b : c ≠ 0x1B := by rcases hc with h | h <;> omega
    refine ⟨{ s with buf_ptr := s.buf_ptr - 1, buf := s.buf.set (s.buf_ptr - 1) 0,
                     out := s.out ++ [Event.print [c]], prev_char := c }, ?_, rfl, ?_, rfl, ?_⟩
    · simp only [cli_put, cli_put_body, hseq, false_and, and_false, if_false, hc13, hc1b, hc,
        if_true, gt_iff_lt, hne, hp, cli_print_char]
    · simp only [line]
      rw [take_set_self, dropLast_take _ _ hne (by rw [hlen]; exact hle)]
    · simp only [line, List.length_take, List.length_set, hlen]
      have e1 : min (s.buf_ptr - 1) MAX_BUF_SIZE = s.buf_ptr - 1 := Nat.min_eq_left (by omega)
      have e2 : min s.buf_ptr MAX_BUF_SIZE = s.buf_ptr := Nat.min_eq_left hle
      rw [e1, e2]
      omega
  · rcases hc with h | h <;> subst h <;> exact ⟨_, rfl, rfl, rfl⟩

theorem C6_erase_witness :
    ((127 : Nat) = 0x7F ∨ (127 : Nat) = 8)
    ∧ (with_line (str "hel")).sequence ≠ 1
    ∧ (with_line (str "hel")).buf.length = MAX_BUF_SIZE
    ∧ 0 < (with_line (str "hel")).buf_ptr
    ∧ (with_line (str "hel")).buf_ptr ≤ MAX_BUF_SIZE
    ∧ ∃ s1, cli_put [] (0 + 1) (with_line (str "hel")) 127 = Outcome.ok (s1, CLI_OK)
        ∧ s1.buf_ptr = (with_line (str "hel")).buf_ptr - 1
        ∧ line s1 = (line (with_line (str "hel"))).dropLast
        ∧ s1.buf = (with_line (str "hel")).buf.set ((with_line (str "hel")).buf_ptr - 1) 0
        ∧ (line s1).length + 1 = (line (with_line (str "hel"))).length :=
  ⟨Or.inl rfl, by decide, rfl, by decide, by decide,
    (C6_erase [] 0 (with_line (str "hel")) 127 (Or.inl rfl) (by decide) rfl (by decide)
      (by decide)).1⟩

/-! ### Escape sequences -/

/-- C8: from a state outside escape mode, the escape marker followed by two
bytes `b1 ≠ 0` and `b2 ≠ b1` (an arrow key is `[` then one of `A`, `B`, `C`, `D`)
returns `CLI_OK` three times and changes nothing but the escape fields: the
buffer, `buf_ptr` and the trace are as before and escape mode is cleared. -/
theorem C8_escape_sequence (tbl : List cmd_t) (d : Nat) (s : State) (b1 b2 : Nat)
    (hseq : s.sequence ≠ 1) (hb1 : b1 ≠ 0) (hb2 : b2 ≠ b1) :
    feed tbl (d + 1) s [0x1B, b1, b2]
      = Outcome.ok ({ s with sequence := 0, sequence_char := b1 }, [CLI_OK, CLI_OK, CLI_OK]) := by
  simp [feed, cli_put, cli_put_body, hseq, hb1, hb2]

theorem C8_escape_sequence_witness :
    cli_init.sequence ≠ 1 ∧ (91 : Nat) ≠ 0 ∧ (65 : Nat) ≠ 91
    ∧ feed demo_tbl (0 + 1) cli_init [0x1B, 91, 65]
      = Outcome.ok ({ cli_init with sequence := 0, sequence_char := 91 },
          [CLI_OK, CLI_OK, CLI_OK]) :=
  ⟨by decide, by decide, by decide,
    C8_escape_sequence demo_tbl 0 cli_init 91 65 (by decide) (by decide) (by decide)⟩

/-! ### Reset after a finalized line -/

/-- Reset after a finalized line. When `cli_put` has processed a terminator
(outside escape mode, or with `\r` itself as the escape discriminator), then
whatever `cli_process` did (command found, not found, handler error) the buffer
is all zeros, `buf_ptr` is back at its start and `tab_index` is 0; and the call
does complete, with `CLI_OK`, for every line shorter than `MAX_BUF_SIZE` that
has between 1 and 29 tokens. -/
theorem reset_after_terminator (tbl : List cmd_t) (d : Nat) (s : State)
    (hesc : s.sequence = 1 → s.sequence_char = 13) :
    (∀ s1 st, cli_put tbl (d + 1) s 13 = Outcome.ok (s1, st) →
        s1.buf = List.replicate MAX_BUF_SIZE 0 ∧ s1.buf_ptr = 0 ∧ s1.tab_index = 0
        ∧ line s1 = [])
    ∧ (s.buf.length = MAX_BUF_SIZE → s.buf_ptr < MAX_BUF_SIZE →
        tokenize (cstr (line s)) ≠ [] → (tokenize (cstr (line s))).length < 30 →
        ∃ s1, cli_put tbl (d + 1) s 13 = Outcome.ok (s1, CLI_OK)) := by
  have c1 : ¬ (s.sequence = 1 ∧ s.sequence_char = 0) := fun h => by
    have := hesc h.1
    omega
  have c2 : ¬ (13 ≠ s.sequence_char ∧ s.sequence = 1) := fun h => h.1 (hesc h.2).symm
  constructor
  · intro s1 st h
    simp only [cli_put, cli_put_body, c1, c2, if_false, if_true] at h
    by_cases hp : s.buf_ptr < MAX_BUF_SIZE
    · simp only [hp, if_true] at h
      cases hstr : strlen (s.buf.set s.buf_ptr 0) with
      | none => simp [hstr] at h
      | some n =>
        simp only [hstr] at h
        cases hproc : cli_process tbl (finalize s n) with
        | ok r =>
          obtain ⟨s3, st3⟩ := r
          have hf := cli_process_frame tbl _ s3 st3 hproc
          rw [hproc] at h
          injection h with h
          injection h with h1 h2
          subst h1
          have hb : s3.buf_ptr = 0 := by rw [hf]; rfl
          have ht : s3.tab_index = 0 := by rw [hf]
          exact ⟨rfl, hb, ht, by simp [line, hb, cli_print]⟩
        | fault f => simp [hproc] at h
        | nofuel => simp [hproc] at h
    · simp [hp] at h
  · intro hlen hp htok h30
    have hc := finalize_cmd_buf s hlen hp
    obtain ⟨s2, st, h, _⟩ := cli_process_ok tbl (finalize s (cstr (line s)).length)
      (by rw [hc]; exact Or.inl htok) (by rw [hc]; exact h30)
    exact ⟨_, by rw [cli_put_terminator tbl d s hesc hlen hp, h]⟩

theorem reset_after_terminator_example :
    ((with_line (str "stop")).sequence = 1 → (with_line (str "stop")).sequence_char = 13)
    ∧ ∃ s1, cli_put demo_tbl (0 + 1) (with_line (str "stop")) 13 = Outcome.ok (s1, CLI_OK)
      ∧ s1.buf = List.replicate MAX_BUF_SIZE 0 ∧ s1.buf_ptr = 0 ∧ s1.tab_index = 0
      ∧ line s1 = [] :=
  ⟨by decide,
    match (reset_after_terminator demo_tbl 0 (with_line (str "stop")) (by decide)).2
        rfl (by decide) (by decide) (by decide) with
    | ⟨s1, h⟩ =>
      ⟨s1, h, (reset_after_terminator demo_tbl 0 (with_line (str "stop")) (by decide)).1
        s1 CLI_OK h⟩⟩

set_option maxRecDepth 100000 in
/-- C9, at the capacity and at thirty tokens: for the line of 128 bytes `b` (one
token) the terminator is stored at `buf[128]`, and for the line
`status x x ... x` (the registered name `status` and twenty-nine arguments) the
tokenizer stores at `argv[30]`; in both runs the call for the terminator stops
before the buffer is cleared. With one byte less, and with one argument less,
the call returns and leaves the buffer all zeros, `buf_ptr` at the start and
`tab_index` 0. -/
theorem C9_failing_input :
    tokenize (List.replicate 128 98) = [List.replicate 128 98]
    ∧ (state_of (feed demo_tbl 1 cli_init (List.replicate 128 98))).map line
        = some (List.replicate 128 98)
    ∧ feed demo_tbl 1 cli_init (List.replicate 128 98 ++ [13]) = Outcome.fault Fault.buf_store
    ∧ (tokenize (with_args (str "status"))).length = 30
    ∧ (state_of (feed demo_tbl 1 cli_init (with_args (str "status")))).map line
        = some (with_args (str "status"))
    ∧ feed demo_tbl 1 cli_init (with_args (str "status") ++ [13])
        = Outcome.fault Fault.argv_store
    ∧ (state_of (feed demo_tbl 1 cli_init (List.replicate 127 98 ++ [13]))).map
          (fun s => (s.buf, s.buf_ptr, s.tab_index))
        = some (List.replicate MAX_BUF_SIZE 0, 0, 0)
    ∧ (state_of (feed demo_tbl 1 cli_init ((with_args (str "status")).take 62 ++ [13]))).map
          (fun s => (s.buf, s.buf_ptr, s.tab_index))
        = some (List.replicate MAX_BUF_SIZE 0, 0, 0) := by
  refine ⟨rfl, rfl, rfl, rfl, rfl, rfl, rfl, rfl⟩

/-! ### The argument vector -/

theorem scan_tbl_out (argc : Nat) (argv : List (List Nat)) :
    ∀ (tbl : List cmd_t) (k : Nat) (s s1 : State) (st : cli_status_t),
      scan_tbl argc argv tbl k s = Outcome.ok (s1, st) →
      s1.out = s.out ++ [Event.println cli_unrecog]
      ∨ ∃ i, s1.out = s.out ++ [Event.call i argc argv] := by
  intro tbl
  induction tbl with
  | nil =>
    intro k s s1 st h
    simp only [scan_tbl, Outcome.ok.injEq, Prod.mk.injEq] at h
    left
    rw [← h.1]; rfl
  | cons x xs ih =>
    intro k s s1 st h
    cases argv with
    | nil => simp [scan_tbl] at h
    | cons a0 rest =>
      by_cases hx : strcmp a0 x.cmd = 0
      · simp only [scan_tbl, List.head?_cons, hx, if_true, Outcome.ok.injEq, Prod.mk.injEq] at h
        right
        exact ⟨k, by rw [← h.1]⟩
      · simp only [scan_tbl, List.head?_cons, hx, if_false] at h
        exact ih (k + 1) s s1 st h

theorem tokenize_head (cmd a0 : List Nat) (rest : List (List Nat))
    (h : tokenize cmd = a0 :: rest) :
    a0 = (cmd.dropWhile (fun c => c == 32)).takeWhile (fun c => c != 32)
    ∧ cmd.dropWhile (fun c => c == 32) ≠ [] := by
  unfold tokenize strtok at h
  cases hd : cmd.dropWhile (fun c => c == 32) with
  | nil => simp [hd, tok_walk] at h
  | cons x xs =>
    simp only [hd, tok_walk, List.cons.injEq] at h
    exact ⟨h.1.symm, by simp⟩

/-- C10: for every command buffer the argument vector of `cli_process` has
`argc ≤ 30`; the empty buffer gives `argc = 0`; when there is a token, `argv[0]`
is the first token of the buffer: the run of non-space bytes after the leading
spaces (the bytes before the first space when the buffer starts with none), not
empty and free of spaces; and these `(argc, argv)` are what a handler receives. -/
theorem C10_argument_vector (cmd : List Nat) :
    (tokenize cmd).length ≤ 30
    ∧ (tokenize []).length = 0
    ∧ (∀ a0 rest, tokenize cmd = a0 :: rest →
        a0 = (cmd.dropWhile (fun c => c == 32)).takeWhile (fun c => c != 32)
        ∧ a0 ≠ [] ∧ 32 ∉ a0
        ∧ (cmd.head? ≠ some 32 → a0 = cmd.takeWhile (fun c => c != 32)))
    ∧ (∀ tbl s s1 st, s.cmd_buf = cmd → cli_process tbl s = Outcome.ok (s1, st) →
        s1.out = s.out ++ [Event.println cli_unrecog]
        ∨ ∃ i, s1.out = s.out ++ [Event.call i (tokenize cmd).length (tokenize cmd)]) := by
  refine ⟨tok_walk_length_le 30 _, rfl, ?_, ?_⟩
  · intro a0 rest h
    obtain ⟨h1, h2⟩ := tokenize_head cmd a0 rest h
    refine ⟨h1, ?_, ?_, ?_⟩
    · rw [h1]
      cases hd : cmd.dropWhile (fun c => c == 32) with
      | nil => exact absurd hd h2
      | cons x xs =>
        have hx : ¬ ((x == 32) = true) := by
          have := List.head_dropWhile_not (fun c => c == 32) cmd h2
          have hh : (List.dropWhile (fun c => c == 32) cmd).head h2 = x := by simp [hd]
          rw [hh] at this
          simpa using this
        have hx1 : x ≠ 32 := by simpa using hx
        simp [List.takeWhile_cons, hx1]
    · rw [h1]
      intro hm
      have := List.mem_takeWhile_imp hm
      simp at this
    · intro hh
      rw [h1]
      cases cmd with
      | nil => rfl
      | cons x xs =>
        have hx : x ≠ 32 := by simpa using hh
        simp [List.dropWhile_cons, hx]
  · intro tbl s s1 st hs h
    unfold cli_process at h
    simp only at h
    split at h
    · exact absurd h (by simp)
    · rw [hs] at h
      simpa using scan_tbl_out _ _ _ _ _ _ _ h

/-! ### Completion -/

theorem feed_chars_room (tbl : List cmd_t) (d : Nat) (cs : List Nat) (s : State)
    (hseq : s.sequence ≠ 1) (hlen : s.buf.length = MAX_BUF_SIZE)
    (hroom : s.buf_ptr + cs.length ≤ MAX_BUF_SIZE) (hcs : ∀ c ∈ cs, ordinary c) :
    ∃ s1, feed_chars (cli_put tbl (d + 1)) cs s = Outcome.ok s1
      ∧ s1.buf = s.buf.take s.buf_ptr ++ cs ++ s.buf.drop (s.buf_ptr + cs.length)
      ∧ s1.buf_ptr = s.buf_ptr + cs.length
      ∧ s1.out = s.out ++ cs.map (fun c => Event.print [c])
      ∧ s1.sequence = s.sequence ∧ s1.tab_index = s.tab_index
      ∧ s1.prev_index = s.prev_index := by
  induction cs generalizing s with
  | nil => exact ⟨s, by simp [feed_chars]⟩
  | cons c cs ih =>
    have hc : ordinary c := hcs c (List.mem_cons_self _ _)
    simp only [List.length_cons] at hroom
    have hlt : s.buf_ptr < MAX_BUF_SIZE := by omega
    have hb : s.buf_ptr < s.buf.length := by rw [hlen]; exact hlt
    obtain ⟨s1, h1, h2, h3, h4, h5, h6, h7⟩ :=
      ih { s with buf := s.buf.set s.buf_ptr c, buf_ptr := s.buf_ptr + 1,
                  out := s.out ++ [Event.print [c]], prev_char := c }
        hseq (by simp [hlen]) (by simp only; omega)
        (fun x hx => hcs x (List.mem_cons_of_mem _ hx))
    refine ⟨s1, ?_, ?_, ?_, ?_, h5, h6, h7⟩
    · simp only [feed_chars, cli_put_ordinary tbl d s c hc hseq, if_pos hlt, h1]
    · rw [h2]
      simp only
      rw [take_succ_set _ _ _ hb, List.drop_set_of_lt _ _ (by omega)]
      simp only [List.length_cons, List.append_assoc, List.singleton_append]
      have e : s.buf_ptr + 1 + cs.length = s.buf_ptr + (cs.length + 1) := by omega
      rw [e]
    · rw [h3]; simp only [List.length_cons]; omega
    · rw [h4]; simp

theorem strlen_zero_tail (l : List Nat) (m : Nat) (h0 : 0 ∉ l) (hm : 0 < m) :
    strlen (l ++ List.replicate m 0) = some l.length := by
  obtain ⟨k, rfl⟩ : ∃ k, m = k + 1 := ⟨m - 1, by omega⟩
  rw [List.replicate_succ, strlen_of_mem _ (by simp), cstr_append_zero _ _ h0]

theorem diff_offset_eq_length_iff (name : List Nat) (h0 : 0 ∉ name) :
    ∀ (p zs : List Nat), diff_offset name (p ++ 0 :: zs) = p.length ↔ p <+: name := by
  induction name with
  | nil =>
    intro p zs
    cases p with
    | nil => simp [diff_offset]
    | cons x p1 => simp [diff_offset]
  | cons a as ih =>
    intro p zs
    have ha : a ≠ 0 := fun e => h0 (by simp [e])
    have has : 0 ∉ as := fun e => h0 (List.mem_cons_of_mem _ e)
    cases p with
    | nil => simp [diff_offset, ha]
    | cons x p1 =>
      by_cases hax : a = x
      · subst hax
        simp [diff_offset, ih has p1 zs, List.cons_prefix_cons]
      · have hxa : ¬ x = a := fun e => hax e.symm
        simp [diff_offset, hax, hxa, List.cons_prefix_cons]

theorem tab_advance_index (n : Nat) (s : State) (hn : n ≤ 256) (ht : s.tab_index < n) :
    tab_advance n s = { s with tab_index := (s.tab_index + 1) % n } := by
  have key : (if (s.tab_index + 1) % 256 ≥ n then 0 else (s.tab_index + 1) % 256)
      = (s.tab_index + 1) % n := by
    by_cases h1 : s.tab_index + 1 < n
    · rw [Nat.mod_eq_of_lt h1, Nat.mod_eq_of_lt (by omega), if_neg (by omega)]
    · have e : s.tab_index + 1 = n := by omega
      rw [e, Nat.mod_self]
      by_cases h2 : n = 256
      · subst h2; simp
      · rw [Nat.mod_eq_of_lt (by omega), if_pos (Nat.le_refl _)]
  simp only [tab_advance, key]

theorem cyc_index (n t a u : Nat) : ((t + a) % n + u) % n = (t + (a + u)) % n := by
  rw [Nat.add_mod, Nat.mod_mod, ← Nat.add_mod, Nat.add_assoc]

theorem hit_shift (tbl : List cmd_t) (p : List Nat) (t a u : Nat) :
    hit tbl p ((t + a) % tbl.length) u = hit tbl p t (a + u) := by
  unfold hit
  rw [cyc_index]

theorem complete_scan_hit (put : State → Nat → Outcome (State × cli_status_t))
    (tbl : List cmd_t) (p : List Nat) (m : Nat)
    (hn : tbl.length ≤ 256) (hnames : ∀ e ∈ tbl, 0 ∉ e.cmd) (h0 : 0 ∉ p) (hm : 0 < m) :
    ∀ (r u i : Nat) (s : State) (e : cmd_t),
      s.buf = p ++ List.replicate m 0 →
      s.tab_index < tbl.length →
      (if i ≥ tbl.length then 0 else i) = s.tab_index →
      u < r → hit tbl p s.tab_index u = true →
      (∀ v, v < u → hit tbl p s.tab_index v = false) →
      tbl[(s.tab_index + u) % tbl.length]? = some e →
      complete_scan put tbl r i s
        = feed_chars put (e.cmd.drop p.length)
            { s with tab_index := (s.tab_index + u) % tbl.length } := by
  intro r
  induction r with
  | zero => intro u i s e _ _ _ hu; omega
  | succ r ih =>
    intro u i s e hbuf ht hi hu hhit hleast he
    have hstr : strlen s.buf = some p.length := by rw [hbuf]; exact strlen_zero_tail p m h0 hm
    obtain ⟨e0, he0⟩ : ∃ e0, tbl[s.tab_index]? = some e0 :=
      ⟨tbl[s.tab_index], List.getElem?_eq_getElem ht⟩
    have hmem0 : e0 ∈ tbl := List.getElem?_mem he0
    have hc0 : cstr e0.cmd = e0.cmd := cstr_eq_self (hnames e0 hmem0)
    have hchk : checkStringDifference e0.cmd s.buf = p.length ↔ p <+: e0.cmd := by
      obtain ⟨k, rfl⟩ : ∃ k, m = k + 1 := ⟨m - 1, by omega⟩
      rw [checkStringDifference, hc0, hbuf, List.replicate_succ]
      exact diff_offset_eq_length_iff e0.cmd (hnames e0 hmem0) p _
    have hhit0 : hit tbl p s.tab_index 0 = p.isPrefixOf e0.cmd := by
      simp only [hit, Nat.add_zero, Nat.mod_eq_of_lt ht, he0]
    simp only [complete_scan, hi, hstr, he0]
    cases u with
    | zero =>
      rw [Nat.add_zero, Nat.mod_eq_of_lt ht, he0] at he
      injection he with he
      subst he
      have hp : p <+: e0.cmd := by
        rw [hhit0] at hhit
        exact List.isPrefixOf_iff_prefix.mp hhit
      rw [if_pos (hchk.mpr hp), hc0]
      simp only [Nat.add_zero, Nat.mod_eq_of_lt ht]
    | succ u =>
      have hnp : ¬ p <+: e0.cmd := by
        have := hleast 0 (Nat.succ_pos _)
        rw [hhit0] at this
        intro hp
        rw [List.isPrefixOf_iff_prefix.mpr hp] at this
        exact absurd this (by simp)
      rw [if_neg (fun h => hnp (hchk.mp h)), tab_advance_index _ _ hn ht]
      have hpos : 0 < tbl.length := by omega
      have step := ih u (s.tab_index + 1) { s with tab_index := (s.tab_index + 1) % tbl.length } e
        hbuf (Nat.mod_lt _ hpos)
        (by
          simp only
          by_cases h1 : s.tab_index + 1 < tbl.length
          · rw [if_neg (by omega), Nat.mod_eq_of_lt h1]
          · have e1 : s.tab_index + 1 = tbl.length := by omega
            rw [if_pos (by omega), e1, Nat.mod_self])
        (by omega)
        (by simp only; rw [hit_shift, Nat.add_comm 1 u]; exact hhit)
        (by
          intro v hv
          simp only
          rw [hit_shift]
          exact hleast (1 + v) (by omega))
        (by simp only; rw [cyc_index, Nat.add_comm 1 u]; exact he)
      rw [step]
      simp only [cyc_index, Nat.add_comm 1 u]

theorem hit_iff (tbl : List cmd_t) (p : List Nat) (c t : Nat) (e : cmd_t)
    (he : tbl[(c + t) % tbl.length]? = some e) :
    hit tbl p c t = true ↔ p <+: e.cmd := by
  simp only [hit, he]
  exact List.isPrefixOf_iff_prefix

theorem buf_after_append (p r : List Nat) (N : Nat) :
    (p ++ List.replicate (N - p.length) 0).take p.length ++ r
        ++ (p ++ List.replicate (N - p.length) 0).drop (p.length + r.length)
      = (p ++ r) ++ List.replicate (N - (p.length + r.length)) 0 := by
  rw [List.take_left, List.drop_append, List.drop_replicate, Nat.sub_sub]

/-- One run of `cli_complete` on a line `p` followed by zeros, when the first
entry with prefix `p` in cyclic order from the cursor is `u` places away. -/
theorem cli_complete_hit (tbl : List cmd_t) (d : Nat) (p : List Nat) (s : State) (u : Nat)
    (e : cmd_t) (hn : tbl.length ≤ 256) (hnames : ∀ e ∈ tbl, ∀ x ∈ e.cmd, printable x)
    (hbuf : s.buf = p ++ List.replicate (MAX_BUF_SIZE - p.length) 0)
    (hptr : s.buf_ptr = p.length) (hplen : p.length < MAX_BUF_SIZE)
    (hseq : s.sequence ≠ 1) (ht : s.tab_index < tbl.length) (hu : u < tbl.length)
    (hhit : hit tbl p s.tab_index u = true)
    (hleast : ∀ v, v < u → hit tbl p s.tab_index v = false)
    (he : tbl[(s.tab_index + u) % tbl.length]? = some e)
    (hfit : e.cmd.length ≤ MAX_BUF_SIZE) :
    ∃ s1, cli_complete (cli_put tbl (d + 1)) tbl s = Outcome.ok (s1, CLI_OK)
      ∧ s1.buf = e.cmd ++ List.replicate (MAX_BUF_SIZE - e.cmd.length) 0
      ∧ s1.buf_ptr = e.cmd.length
      ∧ s1.tab_index = (s.tab_index + u + 1) % tbl.length
      ∧ s1.prev_index = p.length
      ∧ s1.sequence = s.sequence
      ∧ s1.out = s.out ++ (e.cmd.drop p.length).map (fun c => Event.print [c]) := by
  have hmem : e ∈ tbl := List.getElem?_mem he
  have hpre : p <+: e.cmd := (hit_iff tbl p _ _ e he).mp hhit
  obtain ⟨r, hr⟩ := hpre
  have hpr : ∀ x ∈ e.cmd, printable x := hnames e hmem
  have h0 : 0 ∉ p := fun h => by
    have := hpr 0 (by rw [← hr]; exact List.mem_append_left _ h)
    unfold printable at this
    omega
  have hnul : ∀ e ∈ tbl, 0 ∉ e.cmd := fun e1 h1 h => by
    have := hnames e1 h1 0 h
    unfold printable at this
    omega
  have hdrop : e.cmd.drop p.length = r := by rw [← hr]; simp
  have hlenr : e.cmd.length = p.length + r.length := by rw [← hr]; simp
  have hstr : strlen s.buf = some p.length := by
    rw [hbuf]; exact strlen_zero_tail p _ h0 (by omega)
  have hscan := complete_scan_hit (cli_put tbl (d + 1)) tbl p (MAX_BUF_SIZE - p.length) hn hnul h0
    (by omega) tbl.length u s.tab_index { s with prev_index := p.length % 256 } e hbuf ht
    (by simp only; rw [if_neg (by omega)]) hu hhit hleast he
  have hlen : s.buf.length = MAX_BUF_SIZE := by
    rw [hbuf]; simp only [List.length_append, List.length_replicate]; omega
  obtain ⟨s2, f1, f2, f3, f4, f5, f6, f7⟩ := feed_chars_room tbl d (e.cmd.drop p.length)
    { s with prev_index := p.length % 256, tab_index := (s.tab_index + u) % tbl.length }
    hseq hlen (by simp only [hptr, hdrop]; omega)
    (fun x hx => printable_ordinary (hpr x (List.mem_of_mem_drop hx)))
  simp only at f2 f3 f4 f5 f6 f7
  have hpos : 0 < tbl.length := by omega
  have ht2 : s2.tab_index < tbl.length := by rw [f6]; exact Nat.mod_lt _ hpos
  refine ⟨tab_advance tbl.length s2, ?_, ?_, ?_, ?_, ?_, ?_, ?_⟩
  · simp only [cli_complete, hstr, hscan, f1]
  · rw [tab_advance_index _ _ hn ht2]
    simp only
    rw [f2, hptr, hdrop, hbuf, buf_after_append, hr, hlenr]
  · rw [tab_advance_index _ _ hn ht2]
    simp only
    rw [f3, hptr, hdrop, hlenr]
  · rw [tab_advance_index _ _ hn ht2]
    simp only
    rw [f6, Nat.add_mod, Nat.mod_mod, ← Nat.add_mod]
  · rw [tab_advance_index _ _ hn ht2]
    simp only
    rw [f7]
    have h128 : MAX_BUF_SIZE = 128 := rfl
    exact Nat.mod_eq_of_lt (by omega)
  · rw [tab_advance_index _ _ hn ht2]
    simp only
    rw [f5]
  · rw [tab_advance_index _ _ hn ht2]
    simp only
    rw [f4]

theorem cli_put_tab_first (tbl : List cmd_t) (d : Nat) (s : State)
    (hseq : s.sequence ≠ 1) (hprev : s.prev_char ≠ 9) :
    cli_put tbl (d + 2) s 9 =
      match cli_complete (cli_put tbl (d + 1)) tbl s with
      | Outcome.ok (s2, _) => Outcome.ok ({ s2 with prev_char := 9 }, CLI_OK)
      | Outcome.fault f => Outcome.fault f
      | Outcome.nofuel => Outcome.nofuel := by
  simp only [cli_put, cli_put_body, hseq, hprev, false_and, and_false, if_false, if_true]
  simp

theorem cli_put_tab_again (tbl : List cmd_t) (d : Nat) (s : State)
    (hseq : s.sequence ≠ 1) (hprev : s.prev_char = 9) (hpi : s.prev_index < MAX_BUF_SIZE) :
    cli_put tbl (d + 2) s 9 =
      match cli_complete (cli_put tbl (d + 1)) tbl
          { s with
            out := s.out ++ List.replicate (s.buf_ptr - s.prev_index) (Event.print [0x7F])
            buf_ptr := s.prev_index
            buf := s.buf.take s.prev_index
              ++ List.replicate (MAX_BUF_SIZE - s.prev_index) 0 } with
      | Outcome.ok (s2, _) => Outcome.ok ({ s2 with prev_char := 9 }, CLI_OK)
      | Outcome.fault f => Outcome.fault f
      | Outcome.nofuel => Outcome.nofuel := by
  simp only [cli_put, cli_put_body, hseq, hprev, hpi, false_and, and_false, if_false, if_true]
  simp

theorem tab_step (tbl : List cmd_t) (d : Nat) (p : List Nat) (s : State) (u : Nat)
    (e : cmd_t) (hn : tbl.length ≤ 256) (hnames : ∀ e ∈ tbl, ∀ x ∈ e.cmd, printable x)
    (hplen : p.length < MAX_BUF_SIZE) (hr : ready p s)
    (ht : s.tab_index < tbl.length) (hu : u < tbl.length)
    (hhit : hit tbl p s.tab_index u = true)
    (hleast : ∀ v, v < u → hit tbl p s.tab_index v = false)
    (he : tbl[(s.tab_index + u) % tbl.length]? = some e)
    (hfit : e.cmd.length ≤ MAX_BUF_SIZE) :
    ∃ s1, cli_put tbl (d + 2) s 9 = Outcome.ok (s1, CLI_OK)
      ∧ s1.buf = e.cmd ++ List.replicate (MAX_BUF_SIZE - e.cmd.length) 0
      ∧ s1.buf_ptr = e.cmd.length
      ∧ s1.tab_index = (s.tab_index + u + 1) % tbl.length
      ∧ ready p s1 := by
  have hpre : p <+: e.cmd := (hit_iff tbl p _ _ e he).mp hhit
  have fin : ∀ s0 s1 : State, s0.sequence ≠ 1 →
      s1.buf = e.cmd ++ List.replicate (MAX_BUF_SIZE - e.cmd.length) 0 →
      s1.prev_index = p.length → s1.sequence = s0.sequence →
      ready p { s1 with prev_char := 9 } := by
    intro s0 s1 h0 hb hpi hsq
    refine ⟨by simp only; rw [hsq]; exact h0, Or.inr ⟨rfl, hpi, ?_⟩⟩
    simp only
    obtain ⟨r, hr1⟩ := hpre
    rw [hb, ← hr1, List.append_assoc, List.take_left]
  obtain ⟨hseq, hcase⟩ := hr
  rcases hcase with ⟨hprev, hbuf, hptr⟩ | ⟨hprev, hpi, htake⟩
  · obtain ⟨s1, c1, c2, c3, c4, c5, c6, _⟩ := cli_complete_hit tbl d p s u e hn hnames hbuf hptr
      hplen hseq ht hu hhit hleast he hfit
    refine ⟨{ s1 with prev_char := 9 }, ?_, c2, c3, c4, fin s s1 hseq c2 c5 c6⟩
    rw [cli_put_tab_first tbl d s hseq hprev, c1]
  · obtain ⟨s1, c1, c2, c3, c4, c5, c6, _⟩ := cli_complete_hit tbl d p
      { s with
        out := s.out ++ List.replicate (s.buf_ptr - s.prev_index) (Event.print [0x7F])
        buf_ptr := s.prev_index
        buf := s.buf.take s.prev_index ++ List.replicate (MAX_BUF_SIZE - s.prev_index) 0 }
      u e hn hnames (by simp only; rw [hpi, htake]) hpi hplen hseq ht hu hhit hleast he hfit
    refine ⟨{ s1 with prev_char := 9 }, ?_, c2, c3, c4, fin s s1 hseq c2 c5 c6⟩
    rw [cli_put_tab_again tbl d s hseq hprev (by rw [hpi]; exact hplen), c1]

theorem exists_hit (tbl : List cmd_t) (p : List Nat) (q : Nat) (hq : q < tbl.length)
    (hex : ∃ e ∈ tbl, p <+: e.cmd) : ∃ u, u < tbl.length ∧ hit tbl p q u = true := by
  obtain ⟨e, hmem, hpre⟩ := hex
  obtain ⟨idx, hidx, hget⟩ := List.getElem_of_mem hmem
  have hget1 : tbl[idx]? = some e := by rw [List.getElem?_eq_getElem hidx, hget]
  by_cases h : q ≤ idx
  · refine ⟨idx - q, by omega, ?_⟩
    have e1 : (q + (idx - q)) % tbl.length = idx := by
      rw [Nat.add_sub_cancel' h, Nat.mod_eq_of_lt hidx]
    exact (hit_iff tbl p q (idx - q) e (by rw [e1]; exact hget1)).mpr hpre
  · refine ⟨idx + tbl.length - q, by omega, ?_⟩
    have e1 : (q + (idx + tbl.length - q)) % tbl.length = idx := by
      have : q + (idx + tbl.length - q) = idx + tbl.length := by omega
      rw [this, Nat.add_mod_right, Nat.mod_eq_of_lt hidx]
    exact (hit_iff tbl p q _ e (by rw [e1]; exact hget1)).mpr hpre

theorem least_hit (tbl : List cmd_t) (p : List Nat) (q : Nat) (hq : q < tbl.length)
    (hex : ∃ e ∈ tbl, p <+: e.cmd) :
    ∃ u, u < tbl.length ∧ hit tbl p q u = true ∧ ∀ v, v < u → hit tbl p q v = false := by
  have hx : ∃ u, hit tbl p q u = true := by
    obtain ⟨u, _, h⟩ := exists_hit tbl p q hq hex
    exact ⟨u, h⟩
  obtain ⟨u0, hu0, hh0⟩ := exists_hit tbl p q hq hex
  refine ⟨Nat.find hx, ?_, Nat.find_spec hx, ?_⟩
  · exact Nat.lt_of_le_of_lt (Nat.find_min' hx hh0) hu0
  · intro v hv
    have := Nat.find_min hx hv
    simpa using this

theorem countP_range_add (f : Nat → Bool) (a b : Nat) :
    List.countP f (List.range (a + b))
      = List.countP f (List.range a) + List.countP (fun v => f (a + v)) (List.range b) := by
  induction b with
  | zero => simp
  | succ b ih =>
    rw [← Nat.add_assoc, List.range_succ, List.countP_append, ih, List.range_succ,
      List.countP_append]
    simp [List.countP_cons, Nat.add_assoc]

theorem countP_range_none (f : Nat → Bool) (u : Nat) (h : ∀ v, v < u → f v = false) :
    List.countP f (List.range u) = 0 := by
  rw [List.countP_eq_zero]
  intro v hv
  rw [h v (List.mem_range.mp hv)]
  simp

theorem feed_cons_ok (tbl : List cmd_t) (d : Nat) (s s1 s2 : State) (c : Nat) (cs : List Nat)
    (st : cli_status_t) (sts : List cli_status_t)
    (h1 : cli_put tbl d s c = Outcome.ok (s1, st))
    (h2 : feed tbl d s1 cs = Outcome.ok (s2, sts)) :
    feed tbl d s (c :: cs) = Outcome.ok (s2, st :: sts) := by
  simp only [feed, h1, h2]

/-- A run of `k` tabs from a ready state: the line ends as the `k`-th entry with
prefix `p` in cyclic order from the cursor. -/
theorem tab_run (tbl : List cmd_t) (d : Nat) (p : List Nat)
    (hn : tbl.length ≤ 256) (hnames : ∀ e ∈ tbl, ∀ x ∈ e.cmd, printable x)
    (hfit : ∀ e ∈ tbl, p <+: e.cmd → e.cmd.length ≤ MAX_BUF_SIZE)
    (hplen : p.length < MAX_BUF_SIZE) (hex : ∃ e ∈ tbl, p <+: e.cmd) :
    ∀ (k : Nat) (s : State), ready p s → s.tab_index < tbl.length →
      ∃ s1 t e, feed tbl (d + 2) s (List.replicate (k + 1) 9)
          = Outcome.ok (s1, List.replicate (k + 1) CLI_OK)
        ∧ hit tbl p s.tab_index t = true
        ∧ List.countP (hit tbl p s.tab_index) (List.range t) = k
        ∧ tbl[(s.tab_index + t) % tbl.length]? = some e
        ∧ s1.buf = e.cmd ++ List.replicate (MAX_BUF_SIZE - e.cmd.length) 0
        ∧ s1.buf_ptr = e.cmd.length
        ∧ s1.tab_index = (s.tab_index + t + 1) % tbl.length
        ∧ ready p s1 := by
  have hpos : ∀ s : State, s.tab_index < tbl.length → 0 < tbl.length := fun s h => by omega
  have first : ∀ s : State, ready p s → s.tab_index < tbl.length →
      ∃ s1 u e, cli_put tbl (d + 2) s 9 = Outcome.ok (s1, CLI_OK)
        ∧ hit tbl p s.tab_index u = true
        ∧ (∀ v, v < u → hit tbl p s.tab_index v = false)
        ∧ tbl[(s.tab_index + u) % tbl.length]? = some e
        ∧ s1.buf = e.cmd ++ List.replicate (MAX_BUF_SIZE - e.cmd.length) 0
        ∧ s1.buf_ptr = e.cmd.length
        ∧ s1.tab_index = (s.tab_index + u + 1) % tbl.length
        ∧ ready p s1 := by
    intro s hr ht
    obtain ⟨u, hu, hhit, hleast⟩ := least_hit tbl p s.tab_index ht hex
    have hlt : (s.tab_index + u) % tbl.length < tbl.length := Nat.mod_lt _ (hpos s ht)
    have he : tbl[(s.tab_index + u) % tbl.length]?
        = some (tbl[(s.tab_index + u) % tbl.length]) := List.getElem?_eq_getElem hlt
    have hpre := (hit_iff tbl p _ _ _ he).mp hhit
    obtain ⟨s1, c1, c2, c3, c4, c5⟩ := tab_step tbl d p s u _ hn hnames hplen hr ht hu hhit
      hleast he (hfit _ (List.getElem?_mem he) hpre)
    exact ⟨s1, u, _, c1, hhit, hleast, he, c2, c3, c4, c5⟩
  intro k
  induction k with
  | zero =>
    intro s hr ht
    obtain ⟨s1, u, e, c1, hhit, hleast, he, c2, c3, c4, c5⟩ := first s hr ht
    refine ⟨s1, u, e, ?_, hhit, countP_range_none _ u hleast, he, c2, c3, c4, c5⟩
    simp only [List.replicate, feed, c1]
  | succ k ih =>
    intro s hr ht
    obtain ⟨s1, u, e1, c1, hhit, hleast, _, _, _, c4, c5⟩ := first s hr ht
    have ht1 : s1.tab_index < tbl.length := by rw [c4]; exact Nat.mod_lt _ (hpos s ht)
    obtain ⟨s2, t, e, g1, g2, g3, g4, g5, g6, g7, g8⟩ := ih s1 c5 ht1
    have hq : s1.tab_index = (s.tab_index + (u + 1)) % tbl.length := by
      rw [c4, Nat.add_assoc]
    rw [hq] at g2 g3 g4 g7
    refine ⟨s2, u + 1 + t, e, ?_, ?_, ?_, ?_, g5, g6, ?_, g8⟩
    · exact feed_cons_ok tbl (d + 2) s s1 s2 9 _ CLI_OK _ c1 g1
    · rw [hit_shift] at g2
      exact g2
    · rw [countP_range_add, List.range_succ, List.countP_append,
        countP_range_none _ u hleast]
      have e1 : (fun v => hit tbl p s.tab_index (u + 1 + v))
          = hit tbl p ((s.tab_index + (u + 1)) % tbl.length) := by
        funext v
        rw [hit_shift]
      rw [e1, g3]
      simp [List.countP_cons, hhit]
      omega
    · rw [cyc_index] at g4
      exact g4
    · rw [g7, Nat.add_assoc, cyc_index]
      congr 1

/-- C7, in the form that holds of the code: outside escape mode, with a table of at most 256 entries
whose names are printable, a typed prefix `p` shorter than the buffer (zeros
after it, previous byte no tab), every name with prefix `p` no longer than the
buffer and at least one such name, the `k`-th of a run of consecutive tabs
(`k ≥ 1`) returns `CLI_OK` and leaves the line equal to the name of the `k`-th
entry with prefix `p` met when walking the table cyclically from the cursor `c`:
the entry at cyclic position `t`, where position `t` is a match and exactly
`k - 1` positions before `t` are matches. For `status`, `stop`, `set`, cursor 0
and typed `st` the line after one, two and three tabs is `status`, `stop`,
`status`. -/
theorem C7_completion_cycle (tbl : List cmd_t) (d : Nat) (p : List Nat) (s : State)
    (c k : Nat) (hn : tbl.length ≤ 256)
    (hnames : ∀ e ∈ tbl, ∀ x ∈ e.cmd, printable x)
    (hfit : ∀ e ∈ tbl, p <+: e.cmd → e.cmd.length ≤ MAX_BUF_SIZE)
    (hplen : p.length < MAX_BUF_SIZE) (hex : ∃ e ∈ tbl, p <+: e.cmd)
    (hbuf : s.buf = p ++ List.replicate (MAX_BUF_SIZE - p.length) 0)
    (hptr : s.buf_ptr = p.length) (hseq : s.sequence ≠ 1) (hprev : s.prev_char ≠ 9)
    (hc : s.tab_index = c) (hcn : c < tbl.length) (hk : 1 ≤ k) :
    (∃ s1 t e, feed tbl (d + 2) s (List.replicate k 9)
          = Outcome.ok (s1, List.replicate k CLI_OK)
        ∧ hit tbl p c t = true
        ∧ ((List.range t).filter (hit tbl p c)).length + 1 = k
        ∧ tbl[(c + t) % tbl.length]? = some e
        ∧ line s1 = e.cmd ∧ s1.buf_ptr = e.cmd.length)
    ∧ (∃ s1, feed demo_tbl 2 cli_init (str "st" ++ [9])
          = Outcome.ok (s1, List.replicate 3 CLI_OK) ∧ line s1 = str "status")
    ∧ (∃ s1, feed demo_tbl 2 cli_init (str "st" ++ [9, 9])
          = Outcome.ok (s1, List.replicate 4 CLI_OK) ∧ line s1 = str "stop")
    ∧ (∃ s1, feed demo_tbl 2 cli_init (str "st" ++ [9, 9, 9])
          = Outcome.ok (s1, List.replicate 5 CLI_OK) ∧ line s1 = str "status") := by
  refine ⟨?_, ⟨_, rfl, rfl⟩, ⟨_, rfl, rfl⟩, ⟨_, rfl, rfl⟩⟩
  obtain ⟨j, rfl⟩ : ∃ j, k = j + 1 := ⟨k - 1, by omega⟩
  have hr : ready p s := ⟨hseq, Or.inl ⟨hprev, hbuf, hptr⟩⟩
  obtain ⟨s1, t, e, g1, g2, g3, g4, g5, g6, _, _⟩ :=
    tab_run tbl d p hn hnames hfit hplen hex j s hr (by rw [hc]; exact hcn)
  rw [hc] at g2 g3 g4
  refine ⟨s1, t, e, g1, g2, ?_, g4, ?_, g6⟩
  · rw [← List.countP_eq_length_filter, g3]
  · simp only [line]
    rw [g5, g6, List.take_left]

set_option maxRecDepth 100000 in
/-- C7, where the cycle breaks. (1) A name of 129 printable
bytes with the empty prefix: the first tab leaves 128 bytes, not the name.
(2) After `st` and an escape marker the first tab is taken by the escape filter
and the line stays `st`, not `status`. (3) In a table of 257 entries whose only
names with prefix `a` are `ab` (index 255) and `ac` (index 256, the second match
in cyclic order from cursor 0), the second tab leaves `ab` again, not `ac`.
(4) With a typed prefix of 128 bytes equal to the only name, the tab runs
`strlen` over a buffer without terminator. -/
theorem C7_counterexample :
    (line_of (feed long_tbl 2 cli_init [9]) = some (List.replicate 128 97, [CLI_OK])
      ∧ List.replicate 128 97 ≠ List.replicate 129 97)
    ∧ (line_of (feed demo_tbl 2 cli_init (str "st" ++ [0x1B, 9]))
          = some (str "st", List.replicate 4 CLI_OK)
      ∧ str "st" ≠ str "status")
    ∧ (line_of (feed wide_tbl 2 cli_init (str "a" ++ [9, 9]))
          = some (str "ab", List.replicate 3 CLI_OK)
      ∧ str "ab" ≠ str "ac"
      ∧ hit wide_tbl (str "a") 0 256 = true
      ∧ ((List.range 256).filter (hit wide_tbl (str "a") 0)).length + 1 = 2)
    ∧ feed full_tbl 2 cli_init (List.replicate 128 97 ++ [9])
        = Outcome.fault Fault.buf_read := by
  refine ⟨⟨rfl, ?_⟩, ⟨rfl, by decide⟩, ⟨rfl, by decide, rfl, rfl⟩, rfl⟩
  intro h
  have := congrArg List.length h
  simp at this

theorem C7_completion_cycle_witness :
    demo_tbl.length ≤ 256
    ∧ (str "st").length < MAX_BUF_SIZE
    ∧ (∃ e ∈ demo_tbl, str "st" <+: e.cmd)
    ∧ (with_line (str "st")).buf
        = str "st" ++ List.replicate (MAX_BUF_SIZE - (str "st").length) 0
    ∧ (with_line (str "st")).sequence ≠ 1 ∧ (with_line (str "st")).prev_char ≠ 9
    ∧ (with_line (str "st")).tab_index = 0
    ∧ ∃ s1 t e, feed demo_tbl (0 + 2) (with_line (str "st")) (List.replicate 2 9)
          = Outcome.ok (s1, List.replicate 2 CLI_OK)
        ∧ hit demo_tbl (str "st") 0 t = true
        ∧ ((List.range t).filter (hit demo_tbl (str "st") 0)).length + 1 = 2
        ∧ demo_tbl[(0 + t) % demo_tbl.length]? = some e
        ∧ line s1 = e.cmd ∧ s1.buf_ptr = e.cmd.length :=
  have hex : ∃ e ∈ demo_tbl, str "st" <+: e.cmd :=
    ⟨⟨str "status", fun _ _ => CLI_OK⟩, by simp [demo_tbl], by decide⟩
  ⟨by decide, by decide, hex, rfl, by decide, by decide, rfl,
    (C7_completion_cycle demo_tbl 0 (str "st") (with_line (str "st")) 0 2 (by decide)
      (by
        intro e he
        simp only [demo_tbl, List.mem_cons, List.mem_singleton, List.not_mem_nil, or_false] at he
        rcases he with h | h | h <;> subst h <;> decide)
      (by
        intro e he _
        simp only [demo_tbl, List.mem_cons, List.mem_singleton, List.not_mem_nil, or_false] at he
        rcases he with h | h | h <;> subst h <;> decide)
      (by decide) hex rfl rfl (by decide) (by decide) rfl (by decide) (by decide)).1⟩

/-! ### Empty line, erase on an empty line, repeated discriminator, thirty tokens -/

/-- C12: finalizing an empty line with a non-empty table reaches
`strcmp(argv[0], ...)` with a null `argv[0]` (the tokenizer found no token and
the scan starts all the same); only with an empty table does the call report
`CLI_E_CMD_NOT_FOUND` through `cli_process`. -/
theorem C12_empty_line :
    tokenize [] = []
    ∧ feed demo_tbl 1 cli_init [13] = Outcome.fault Fault.null_argv
    ∧ cli_process demo_tbl (finalize cli_init 0) = Outcome.fault Fault.null_argv
    ∧ status_of (cli_process [] (finalize cli_init 0)) = some CLI_E_CMD_NOT_FOUND := by
  refine ⟨rfl, rfl, rfl, rfl⟩

/-- C13: an erase byte on an empty line, outside escape mode, leaves the line
empty but is echoed all the same: the sink receives the raw erase byte
although no character was removed. -/
theorem C13_erase_on_empty_line :
    (state_of (cli_put demo_tbl 1 cli_init 0x7F)).map (fun s => (line s, s.buf_ptr, s.out))
        = some ([], 0, cli_init.out ++ [Event.print [0x7F]])
    ∧ (state_of (cli_put demo_tbl 1 cli_init 8)).map (fun s => (line s, s.buf_ptr, s.out))
        = some ([], 0, cli_init.out ++ [Event.print [8]]) := by
  constructor <;> rfl

/-- C17: in escape mode with the discriminator `[` captured, a second `[` is
not consumed: it reaches the default case, is appended to the line and echoed,
and escape mode stays active. -/
theorem C17_repeated_discriminator :
    (state_of (feed demo_tbl 1 cli_init [0x1B, 91, 91])).map
        (fun s => (line s, s.out, s.sequence, s.sequence_char))
      = some ([91], cli_init.out ++ [Event.print [91]], 1, 91) := by
  rfl

/-- C20: for a line of thirty tokens the loop leaves `argc = 30`, so its last
store `argv[++argc]` went to index 30 of the 30-slot vector; `cli_process`
stops there. A line of twenty-nine tokens stays inside the vector. -/
theorem C20_thirtieth_token :
    thirty_tokens.length = 59
    ∧ (tokenize thirty_tokens).length = 30
    ∧ cli_process demo_tbl (with_cmd thirty_tokens) = Outcome.fault Fault.argv_store
    ∧ feed demo_tbl 1 cli_init (thirty_tokens ++ [13]) = Outcome.fault Fault.argv_store
    ∧ status_of (cli_process demo_tbl (with_cmd (thirty_tokens.drop 2)))
        = some CLI_E_CMD_NOT_FOUND := by
  refine ⟨rfl, rfl, rfl, rfl, rfl⟩

/-! ### The recorded previous byte and the double trigger -/

theorem cli_put_succ (tbl : List cmd_t) (d : Nat) (s : State) (c : Nat) :
    cli_put tbl (d + 1) s c = cli_put_body (cli_put tbl d) tbl s c := rfl

/-- C16, in the form that holds of the code: `prev_char` is recorded only by the
calls that reach the end of `cli_put`. A byte taken by the escape filter (first
byte after the marker, or a byte different from the discriminator) or the escape
marker itself returns `CLI_OK` and leaves `prev_char`, the buffer and the trace
as they were; an ordinary byte rejected with `CLI_E_BUF_FULL` leaves the whole
state as it was; every other call that completes records the byte. -/
theorem C16_prev_char (tbl : List cmd_t) (d : Nat) (s : State) (c : Nat) :
    (((s.sequence = 1 ∧ s.sequence_char = 0) ∨ (c ≠ s.sequence_char ∧ s.sequence = 1)
        ∨ c = 0x1B) →
      ∃ s1, cli_put tbl (d + 1) s c = Outcome.ok (s1, CLI_OK)
        ∧ s1.prev_char = s.prev_char ∧ s1.buf = s.buf ∧ s1.buf_ptr = s.buf_ptr
        ∧ s1.out = s.out)
    ∧ (¬ ((s.sequence = 1 ∧ s.sequence_char = 0) ∨ (c ≠ s.sequence_char ∧ s.sequence = 1)
        ∨ c = 0x1B) →
      ordinary c → ¬ s.buf_ptr < MAX_BUF_SIZE →
      cli_put tbl (d + 1) s c = Outcome.ok (s, CLI_E_BUF_FULL))
    ∧ (¬ ((s.sequence = 1 ∧ s.sequence_char = 0) ∨ (c ≠ s.sequence_char ∧ s.sequence = 1)
        ∨ c = 0x1B) →
      (ordinary c → s.buf_ptr < MAX_BUF_SIZE) →
      ∀ s1 st, cli_put tbl (d + 1) s c = Outcome.ok (s1, st) → s1.prev_char = c) := by
  refine ⟨?_, ?_, ?_⟩
  · intro h
    by_cases h1 : s.sequence = 1 ∧ s.sequence_char = 0
    · exact ⟨{ s with sequence_char := c }, by rw [cli_put_succ, cli_put_body, if_pos h1],
        rfl, rfl, rfl, rfl⟩
    · by_cases h2 : c ≠ s.sequence_char ∧ s.sequence = 1
      · exact ⟨{ s with sequence := 0 }, by rw [cli_put_succ, cli_put_body, if_neg h1, if_pos h2],
          rfl, rfl, rfl, rfl⟩
      · have h3 : c = 0x1B := by
          rcases h with h | h | h
          · exact absurd h h1
          · exact absurd h h2
          · exact h
        exact ⟨{ s with sequence := 1, sequence_char := 0 },
          by rw [cli_put_succ, cli_put_body, if_neg h1, if_neg h2, if_pos h3], rfl, rfl, rfl, rfl⟩
  · intro h hc hfull
    have h1 : ¬ (s.sequence = 1 ∧ s.sequence_char = 0) := fun x => h (Or.inl x)
    have h2 : ¬ (c ≠ s.sequence_char ∧ s.sequence = 1) := fun x => h (Or.inr (Or.inl x))
    obtain ⟨o1, o2, o3, o4, o5⟩ := hc
    have o23 : ¬ (c = 0x7F ∨ c = 8) := fun x => by rcases x with x | x <;> omega
    rw [cli_put_succ, cli_put_body, if_neg h1, if_neg h2, if_neg o5, if_neg o1, if_neg o23,
      if_neg o4, if_neg hfull]
  · intro h hroom s1 st hr
    have h1 : ¬ (s.sequence = 1 ∧ s.sequence_char = 0) := fun x => h (Or.inl x)
    have h2 : ¬ (c ≠ s.sequence_char ∧ s.sequence = 1) := fun x => h (Or.inr (Or.inl x))
    have h3 : ¬ c = 0x1B := fun x => h (Or.inr (Or.inr x))
    rw [cli_put_succ, cli_put_body, if_neg h1, if_neg h2, if_neg h3] at hr
    by_cases c13 : c = 13
    · subst c13
      rw [if_pos rfl] at hr
      dsimp only at hr
      repeat' split at hr
      all_goals first
        | (injection hr; done)
        | (injection hr with hr; injection hr with hr _; subst hr; rfl)
    · rw [if_neg c13] at hr
      by_cases ce : c = 0x7F ∨ c = 8
      · rw [if_pos ce] at hr
        generalize (if s.buf_ptr > 0 then s.buf_ptr - 1 else s.buf_ptr) = p at hr
        dsimp only at hr
        split at hr
        · injection hr with hr
          injection hr with hr _
          subst hr
          rfl
        · injection hr
      · rw [if_neg ce] at hr
        by_cases c9 : c = 9
        · subst c9
          rw [if_pos rfl] at hr
          dsimp only at hr
          repeat' split at hr
          all_goals first
            | (injection hr; done)
            | (injection hr with hr; injection hr with hr _; subst hr; rfl)
        · rw [if_neg c9] at hr
          have hc : ordinary c := by
            unfold ordinary
            refine ⟨c13, ?_, ?_, c9, h3⟩
            · exact fun x => ce (Or.inr x)
            · exact fun x => ce (Or.inl x)
          rw [if_pos (hroom hc)] at hr
          injection hr with hr
          injection hr with hr _
          subst hr
          rfl

/-- C16, the byte is not always recorded: after the escape marker `prev_char`
is still 0; after tab, marker, `[`, `A` it is still the tab, although the byte
just ingested is `A`, and the next tab is handled as a double trigger: it sends
four erase bytes for the suggestion `atus` and moves on to `stop`. -/
theorem C16_counterexample :
    (state_of (cli_put demo_tbl 1 cli_init 0x1B)).map (fun s => s.prev_char) = some 0
    ∧ (state_of (feed demo_tbl 2 (with_line (str "st")) [9, 0x1B, 91, 65])).map
        (fun s => (s.prev_char, line s)) = some (9, str "status")
    ∧ (state_of (feed demo_tbl 2 (with_line (str "st")) [9, 0x1B, 91, 65, 9])).map
        (fun s => (line s, s.out))
      = some (str "stop", cli_init.out
          ++ (str "atus").map (fun c => Event.print [c])
          ++ List.replicate 4 (Event.print [0x7F])
          ++ (str "op").map (fun c => Event.print [c])) := by
  refine ⟨rfl, rfl, rfl⟩

theorem nonspace_runs_nil : nonspace_runs [] = [] := rfl

theorem nonspace_runs_space (xs : List Nat) : nonspace_runs (32 :: xs) = nonspace_runs xs := by
  simp [nonspace_runs, List.splitOnP_cons]

theorem nonspace_runs_dropWhile (l : List Nat) :
    nonspace_runs l = nonspace_runs (l.dropWhile (fun c => c == 32)) := by
  induction l with
  | nil => rfl
  | cons x xs ih =>
    by_cases hx : x = 32
    · subst hx
      rw [nonspace_runs_space, ih]
      simp [List.dropWhile_cons]
    · simp [List.dropWhile_cons, hx]

theorem takeWhile_append_dropWhile_ns (l : List Nat) :
    l.takeWhile (fun c => c != 32) ++ l.dropWhile (fun c => c != 32) = l :=
  List.takeWhile_append_dropWhile _ l

theorem nonspace_runs_token (x : Nat) (xs : List Nat) (hx : x ≠ 32) :
    nonspace_runs (x :: xs)
      = (x :: xs).takeWhile (fun c => c != 32)
        :: nonspace_runs (((x :: xs).dropWhile (fun c => c != 32)).drop 1) := by
  have hne : (x :: xs).takeWhile (fun c => c != 32) ≠ [] := by
    simp [List.takeWhile_cons, hx]
  have hns : ∀ y ∈ (x :: xs).takeWhile (fun c => c != 32), ¬ ((fun c => c == 32) y = true) := by
    intro y hy
    have := List.mem_takeWhile_imp hy
    simpa using this
  have hsplit := takeWhile_append_dropWhile_ns (x :: xs)
  cases hd : (x :: xs).dropWhile (fun c => c != 32) with
  | nil =>
    rw [hd, List.append_nil] at hsplit
    rw [hsplit] at hns hne ⊢
    simp only [List.drop_nil, nonspace_runs_nil]
    unfold nonspace_runs
    rw [List.splitOnP_eq_single _ _ hns]
    simp
  | cons y ys =>
    have hy : y = 32 := by
      have h1 : (x :: xs).dropWhile (fun c => c != 32) ≠ [] := by rw [hd]; simp
      have := List.head_dropWhile_not (fun c => c != 32) (x :: xs) h1
      simp only [hd, List.head_cons] at this
      simpa using this
    subst hy
    rw [hd] at hsplit
    simp only [List.drop_succ_cons, List.drop_zero]
    have e : nonspace_runs (x :: xs)
        = nonspace_runs ((x :: xs).takeWhile (fun c => c != 32) ++ 32 :: ys) := by rw [hsplit]
    rw [e]
    unfold nonspace_runs
    rw [List.splitOnP_first _ _ hns 32 (by simp) ys, List.filter_cons]
    have : (!((x :: xs).takeWhile (fun c => c != 32)).isEmpty) = true := by
      cases h : (x :: xs).takeWhile (fun c => c != 32) with
      | nil => exact absurd h hne
      | cons _ _ => rfl
    rw [if_pos this]

theorem strtok_runs (l : List Nat) :
    (strtok l = none ∧ nonspace_runs l = [])
    ∨ ∃ t r, strtok l = some (t, r) ∧ nonspace_runs l = t :: nonspace_runs r
        ∧ t ≠ [] ∧ 32 ∉ t := by
  rw [nonspace_runs_dropWhile l]
  unfold strtok
  cases hd : l.dropWhile (fun c => c == 32) with
  | nil => exact Or.inl ⟨rfl, rfl⟩
  | cons x xs =>
    have hx : x ≠ 32 := by
      have h1 : l.dropWhile (fun c => c == 32) ≠ [] := by rw [hd]; simp
      have := List.head_dropWhile_not (fun c => c == 32) l h1
      simp only [hd, List.head_cons] at this
      simpa using this
    refine Or.inr ⟨_, _, rfl, nonspace_runs_token x xs hx, ?_, ?_⟩
    · simp [List.takeWhile_cons, hx]
    · intro hm
      have := List.mem_takeWhile_imp hm
      simp at this

theorem tok_walk_runs (k : Nat) : ∀ l : List Nat,
    tok_walk k (strtok l) = (nonspace_runs l).take k
    ∧ ∀ t ∈ tok_walk k (strtok l), t ≠ [] ∧ 32 ∉ t := by
  induction k with
  | zero =>
    intro l
    cases h : strtok l <;> simp [tok_walk]
  | succ k ih =>
    intro l
    rcases strtok_runs l with ⟨h1, h2⟩ | ⟨t, r, h1, h2, h3, h4⟩
    · rw [h1, h2]
      simp [tok_walk]
    · rw [h1, h2]
      simp only [tok_walk, List.take_succ_cons, (ih r).1, List.mem_cons, true_and]
      intro t1 ht1
      rcases ht1 with e | e
      · rw [e]; exact ⟨h3, h4⟩
      · exact (ih r).2 t1 (by rw [(ih r).1]; exact e)

/-- C19: for every command buffer the tokens in `argv` are the maximal runs of
non-space bytes of the buffer, in order, the first 30 of them; no token is
empty or holds a space; leading, trailing and repeated spaces give no empty
token: `a  b` and ` a b ` both give `argv = [a, b]`, `argc = 2`. -/
theorem C19_tokens_are_runs (cmd : List Nat) :
    tokenize cmd = (nonspace_runs cmd).take 30
    ∧ (∀ t ∈ tokenize cmd, t ≠ [] ∧ 32 ∉ t)
    ∧ tokenize (str "a  b") = [str "a", str "b"]
    ∧ tokenize (str " a b ") = [str "a", str "b"]
    ∧ (tokenize (str " a b ")).length = 2 := by
  exact ⟨(tok_walk_runs 30 cmd).1, (tok_walk_runs 30 cmd).2, rfl, rfl, rfl⟩

/-! ### Postcondition of one completion -/

theorem complete_scan_miss (put : State → Nat → Outcome (State × cli_status_t))
    (tbl : List cmd_t) (p : List Nat) (m : Nat)
    (hn : tbl.length ≤ 256) (hnames : ∀ e ∈ tbl, 0 ∉ e.cmd) (h0 : 0 ∉ p) (hm : 0 < m) :
    ∀ (r i : Nat) (s : State),
      s.buf = p ++ List.replicate m 0 →
      s.tab_index < tbl.length →
      (if i ≥ tbl.length then 0 else i) = s.tab_index →
      (∀ v, v < r → hit tbl p s.tab_index v = false) →
      complete_scan put tbl r i s
        = Outcome.ok { s with tab_index := (s.tab_index + r) % tbl.length } := by
  intro r
  induction r with
  | zero =>
    intro i s _ ht _ _
    simp only [complete_scan, Nat.add_zero, Nat.mod_eq_of_lt ht]
  | succ r ih =>
    intro i s hbuf ht hi hmiss
    have hstr : strlen s.buf = some p.length := by rw [hbuf]; exact strlen_zero_tail p m h0 hm
    obtain ⟨e0, he0⟩ : ∃ e0, tbl[s.tab_index]? = some e0 :=
      ⟨tbl[s.tab_index], List.getElem?_eq_getElem ht⟩
    have hmem0 : e0 ∈ tbl := List.getElem?_mem he0
    have hc0 : cstr e0.cmd = e0.cmd := cstr_eq_self (hnames e0 hmem0)
    have hchk : checkStringDifference e0.cmd s.buf = p.length ↔ p <+: e0.cmd := by
      obtain ⟨k, rfl⟩ : ∃ k, m = k + 1 := ⟨m - 1, by omega⟩
      rw [checkStringDifference, hc0, hbuf, List.replicate_succ]
      exact diff_offset_eq_length_iff e0.cmd (hnames e0 hmem0) p _
    have hnp : ¬ p <+: e0.cmd := by
      have h1 := hmiss 0 (Nat.succ_pos _)
      intro hp
      have h2 := (hit_iff tbl p s.tab_index 0 e0
        (by rw [Nat.add_zero, Nat.mod_eq_of_lt ht]; exact he0)).mpr hp
      rw [h1] at h2
      exact absurd h2 (by simp)
    have hpos : 0 < tbl.length := by omega
    simp only [complete_scan, hi, hstr, he0]
    rw [if_neg (fun h => hnp (hchk.mp h)), tab_advance_index _ _ hn ht]
    have step := ih (s.tab_index + 1) { s with tab_index := (s.tab_index + 1) % tbl.length }
      hbuf (Nat.mod_lt _ hpos)
      (by
        simp only
        by_cases h1 : s.tab_index + 1 < tbl.length
        · rw [if_neg (by omega), Nat.mod_eq_of_lt h1]
        · have e1 : s.tab_index + 1 = tbl.length := by omega
          rw [if_pos (by omega), e1, Nat.mod_self])
      (by
        intro v hv
        simp only
        rw [hit_shift]
        exact hmiss (1 + v) (by omega))
    rw [step]
    simp only [cyc_index, Nat.add_comm 1 r]

theorem cli_complete_miss (tbl : List cmd_t) (d : Nat) (p : List Nat) (s : State)
    (hn : tbl.length ≤ 256) (hnames : ∀ e ∈ tbl, ∀ x ∈ e.cmd, printable x)
    (hbuf : s.buf = p ++ List.replicate (MAX_BUF_SIZE - p.length) 0)
    (hplen : p.length < MAX_BUF_SIZE) (h0 : 0 ∉ p) (ht : s.tab_index < tbl.length)
    (hno : ∀ e ∈ tbl, ¬ p <+: e.cmd) :
    cli_complete (cli_put tbl (d + 1)) tbl s
      = Outcome.ok ({ s with prev_index := p.length,
                             tab_index := (s.tab_index + 1) % tbl.length }, CLI_OK) := by
  have hnul : ∀ e ∈ tbl, 0 ∉ e.cmd := fun e1 h1 h => by
    have := hnames e1 h1 0 h
    unfold printable at this
    omega
  have hstr : strlen s.buf = some p.length := by
    rw [hbuf]; exact strlen_zero_tail p _ h0 (by omega)
  have hpos : 0 < tbl.length := by omega
  have hmiss : ∀ v, v < tbl.length → hit tbl p s.tab_index v = false := by
    intro v _
    have hlt : (s.tab_index + v) % tbl.length < tbl.length := Nat.mod_lt _ hpos
    have he : tbl[(s.tab_index + v) % tbl.length]?
        = some (tbl[(s.tab_index + v) % tbl.length]) := List.getElem?_eq_getElem hlt
    cases hh : hit tbl p s.tab_index v with
    | false => rfl
    | true => exact absurd ((hit_iff tbl p _ _ _ he).mp hh) (hno _ (List.getElem?_mem he))
  have hscan := complete_scan_miss (cli_put tbl (d + 1)) tbl p (MAX_BUF_SIZE - p.length) hn
    hnul h0 (by omega) tbl.length s.tab_index { s with prev_index := p.length % 256 } hbuf ht
    (by simp only; rw [if_neg (by omega)]) hmiss
  have h128 : MAX_BUF_SIZE = 128 := rfl
  have hmod : p.length % 256 = p.length := Nat.mod_eq_of_lt (by omega)
  simp only [cli_complete, hstr, hscan]
  rw [tab_advance_index _ _ hn (by simp only; exact Nat.mod_lt _ hpos)]
  simp only [Nat.add_mod_right, Nat.mod_eq_of_lt ht, hmod]

/-- C14, in the form that holds of the code: one call of `cli_complete` on a table
of at most 256 entries with printable names, cursor `c` below the table size,
outside escape mode, on a line `p` shorter than the buffer, free of NUL bytes
and followed by zeros. If position `u` is the first in the cyclic order
`c, c+1, ..., n-1, 0, ..., c-1` whose entry has `p` as a prefix and that name
fits the buffer, the line becomes that name, exactly its bytes from index
`len p` on are echoed and the cursor becomes `(j + 1) mod n` for the index
`j = (c + u) mod n` of the entry. If no entry has `p` as a prefix, the buffer
and the trace are unchanged and the cursor becomes `(c + 1) mod n`. The result
is `CLI_OK` in both cases. -/
theorem C14_complete_postcondition (tbl : List cmd_t) (d : Nat) (p : List Nat) (s : State)
    (c : Nat) (hn : tbl.length ≤ 256) (hnames : ∀ e ∈ tbl, ∀ x ∈ e.cmd, printable x)
    (hbuf : s.buf = p ++ List.replicate (MAX_BUF_SIZE - p.length) 0)
    (hptr : s.buf_ptr = p.length) (hplen : p.length < MAX_BUF_SIZE) (h0 : 0 ∉ p)
    (hseq : s.sequence ≠ 1) (hc : s.tab_index = c) (hcn : c < tbl.length) :
    (∀ u e, u < tbl.length → hit tbl p c u = true →
        (∀ v, v < u → hit tbl p c v = false) →
        tbl[(c + u) % tbl.length]? = some e → e.cmd.length ≤ MAX_BUF_SIZE →
        ∃ s1, cli_complete (cli_put tbl (d + 1)) tbl s = Outcome.ok (s1, CLI_OK)
          ∧ line s1 = e.cmd ∧ s1.buf_ptr = e.cmd.length
          ∧ s1.out = s.out ++ (e.cmd.drop p.length).map (fun x => Event.print [x])
          ∧ s1.tab_index = ((c + u) % tbl.length + 1) % tbl.length)
    ∧ ((∀ e ∈ tbl, ¬ p <+: e.cmd) →
        ∃ s1, cli_complete (cli_put tbl (d + 1)) tbl s = Outcome.ok (s1, CLI_OK)
          ∧ s1.buf = s.buf ∧ s1.buf_ptr = s.buf_ptr ∧ line s1 = line s ∧ s1.out = s.out
          ∧ s1.tab_index = (c + 1) % tbl.length) := by
  constructor
  · intro u e hu hhit hleast he hfit
    rw [← hc] at hhit hleast he
    obtain ⟨s1, g1, g2, g3, g4, _, _, g7⟩ := cli_complete_hit tbl d p s u e hn hnames hbuf hptr
      hplen hseq (by rw [hc]; exact hcn) hu hhit hleast he hfit
    refine ⟨s1, g1, ?_, g3, g7, ?_⟩
    · simp only [line]
      rw [g2, g3, List.take_left]
    · rw [g4, hc, Nat.add_mod (c + u) 1, Nat.add_mod ((c + u) % tbl.length) 1, Nat.mod_mod]
  · intro hno
    have h := cli_complete_miss tbl d p s hn hnames hbuf hplen h0 (by rw [hc]; exact hcn) hno
    rw [hc] at h
    exact ⟨_, h, rfl, rfl, rfl, rfl, rfl⟩
theorem C14_complete_postcondition_witness :
    demo_tbl.length ≤ 256
    ∧ (with_line (str "st")).buf = str "st" ++ List.replicate (MAX_BUF_SIZE - (str "st").length) 0
    ∧ (str "st").length < MAX_BUF_SIZE ∧ 0 ∉ str "st"
    ∧ (with_line (str "st")).sequence ≠ 1 ∧ (with_line (str "st")).tab_index = 0
    ∧ hit demo_tbl (str "st") 0 0 = true
    ∧ demo_tbl[(0 + 0) % demo_tbl.length]? = some ⟨str "status", fun _ _ => CLI_OK⟩
    ∧ ∃ s1, cli_complete (cli_put demo_tbl (0 + 1)) demo_tbl (with_line (str "st"))
          = Outcome.ok (s1, CLI_OK)
        ∧ line s1 = str "status" ∧ s1.buf_ptr = (str "status").length
        ∧ s1.out = (with_line (str "st")).out
            ++ ((str "status").drop (str "st").length).map (fun x => Event.print [x])
        ∧ s1.tab_index = ((0 + 0) % demo_tbl.length + 1) % demo_tbl.length :=
  ⟨by decide, rfl, by decide, by decide, by decide, rfl, rfl, rfl,
    (C14_complete_postcondition demo_tbl 0 (str "st") (with_line (str "st")) 0 (by decide)
      (by
        intro e he
        simp only [demo_tbl, List.mem_cons, List.mem_singleton, List.not_mem_nil, or_false] at he
        rcases he with h | h | h <;> subst h <;> decide)
      rfl rfl (by decide) (by decide) (by decide) rfl (by decide)).1
      0 ⟨str "status", fun _ _ => CLI_OK⟩ (by decide) rfl (fun v hv => absurd hv (by omega))
      rfl (by decide)⟩

set_option maxRecDepth 100000 in
/-- C14, where the postcondition breaks. (1) In a table of 257 entries none of
which has the prefix `zz`, the cursor 0 becomes 2, not `(0 + 1) mod 257 = 1`:
`tab_index` has 8 bits. (2) On the line `s`, NUL no entry has the line as a
prefix, yet `tatus` is appended after the NUL. (3) On a line of 128 bytes equal
to the only name, `strlen` runs over a buffer without terminator. -/
theorem C14_counterexample :
    ((state_of (cli_complete (cli_put wide_tbl 1) wide_tbl (with_line (str "zz")))).map
        (fun s => s.tab_index) = some 2
      ∧ wide_tbl.length = 257
      ∧ ((List.range 257).filter (hit wide_tbl (str "zz") 0)).length = 0)
    ∧ ((state_of (cli_complete (cli_put demo_tbl 1) demo_tbl (with_line [115, 0]))).map
        (fun s => line s) = some [115, 0, 116, 97, 116, 117, 115]
      ∧ ((List.range 3).filter (hit demo_tbl [115, 0] 0)).length = 0)
    ∧ cli_complete (cli_put full_tbl 1) full_tbl (with_line (List.replicate 128 97))
        = Outcome.fault Fault.buf_read := by
  refine ⟨⟨rfl, rfl, rfl⟩, ⟨rfl, rfl⟩, rfl⟩

/-! ### Termination of a completion trigger -/

theorem scan_tbl_ne_nofuel (argc : Nat) (argv : List (List Nat)) :
    ∀ (tbl : List cmd_t) (k : Nat) (s : State), scan_tbl argc argv tbl k s ≠ Outcome.nofuel := by
  intro tbl
  induction tbl with
  | nil => intro k s h; simp [scan_tbl] at h
  | cons x xs ih =>
    intro k s h
    cases argv with
    | nil => simp [scan_tbl] at h
    | cons a0 rest =>
      by_cases hx : strcmp a0 x.cmd = 0
      · simp [scan_tbl, hx] at h
      · simp only [scan_tbl, List.head?_cons, hx, if_false] at h
        exact ih (k + 1) s h

theorem cli_process_ne_nofuel (tbl : List cmd_t) (s : State) :
    cli_process tbl s ≠ Outcome.nofuel := by
  intro h
  unfold cli_process at h
  dsimp only at h
  split at h
  · injection h
  · exact scan_tbl_ne_nofuel _ _ _ _ _ h

/-- A byte other than a tab never reaches `cli_complete`: the body of `cli_put`
does not use the `cli_put` it was given for the completion. -/
theorem cli_put_body_no_tab (put1 put2 : State → Nat → Outcome (State × cli_status_t))
    (tbl : List cmd_t) (s : State) (c : Nat) (hc : c ≠ 9) :
    cli_put_body put1 tbl s c = cli_put_body put2 tbl s c := by
  simp only [cli_put_body, hc, if_false]

theorem cli_put_body_ne_nofuel (put : State → Nat → Outcome (State × cli_status_t))
    (tbl : List cmd_t) (s : State) (c : Nat) (hc : c ≠ 9) :
    cli_put_body put tbl s c ≠ Outcome.nofuel := by
  intro h
  unfold cli_put_body at h
  by_cases h1 : s.sequence = 1 ∧ s.sequence_char = 0
  · rw [if_pos h1] at h; injection h
  · rw [if_neg h1] at h
    by_cases h2 : c ≠ s.sequence_char ∧ s.sequence = 1
    · rw [if_pos h2] at h; injection h
    · rw [if_neg h2] at h
      by_cases h3 : c = 0x1B
      · rw [if_pos h3] at h; injection h
      · rw [if_neg h3] at h
        by_cases c13 : c = 13
        · rw [if_pos c13] at h
          split at h
          · split at h
            · injection h
            · rename_i n hn
              cases hp : cli_process tbl (finalize s n) with
              | ok r => rw [hp] at h; injection h
              | fault f => rw [hp] at h; injection h
              | nofuel => exact cli_process_ne_nofuel _ _ hp
          · injection h
        · rw [if_neg c13] at h
          by_cases ce : c = 0x7F ∨ c = 8
          · rw [if_pos ce] at h
            generalize (if s.buf_ptr > 0 then s.buf_ptr - 1 else s.buf_ptr) = p at h
            dsimp only at h
            split at h <;> injection h
          · rw [if_neg ce, if_neg hc] at h
            split at h <;> injection h

theorem feed_chars_ne_nofuel (tbl : List cmd_t) (d : Nat) :
    ∀ (cs : List Nat) (s : State), (∀ c ∈ cs, c ≠ 9) →
      feed_chars (cli_put tbl (d + 1)) cs s ≠ Outcome.nofuel := by
  intro cs
  induction cs with
  | nil => intro s _ h; simp [feed_chars] at h
  | cons c cs ih =>
    intro s hcs h
    unfold feed_chars at h
    cases hp : cli_put tbl (d + 1) s c with
    | ok r =>
      obtain ⟨s1, st⟩ := r
      rw [hp] at h
      exact ih s1 (fun x hx => hcs x (List.mem_cons_of_mem _ hx)) h
    | fault f => rw [hp] at h; injection h
    | nofuel =>
      rw [cli_put_succ] at hp
      exact cli_put_body_ne_nofuel _ tbl s c (hcs c (List.mem_cons_self _ _)) hp

theorem complete_scan_ne_nofuel (tbl : List cmd_t) (d : Nat) (hnames : ∀ e ∈ tbl, 9 ∉ e.cmd) :
    ∀ (r i : Nat) (s : State),
      complete_scan (cli_put tbl (d + 1)) tbl r i s ≠ Outcome.nofuel := by
  intro r
  induction r with
  | zero => intro i s h; simp [complete_scan] at h
  | succ r ih =>
    intro i s h
    unfold complete_scan at h
    dsimp only at h
    split at h
    · injection h
    · split at h
      · injection h
      · rename_i e he
        split at h
        · refine feed_chars_ne_nofuel tbl d _ s ?_ h
          intro c hc hc9
          have h1 : c ∈ cstr e.cmd := List.mem_of_mem_drop hc
          have h2 : c ∈ e.cmd := List.takeWhile_subset _ h1
          exact hnames e (List.getElem?_mem he) (hc9 ▸ h2)
        · exact ih _ _ h

theorem cli_complete_ne_nofuel (tbl : List cmd_t) (d : Nat) (hnames : ∀ e ∈ tbl, 9 ∉ e.cmd)
    (s : State) : cli_complete (cli_put tbl (d + 1)) tbl s ≠ Outcome.nofuel := by
  intro h
  unfold cli_complete at h
  split at h
  · injection h
  · dsimp only at h
    split at h
    · injection h
    · injection h
    · rename_i hs
      exact complete_scan_ne_nofuel tbl d hnames _ _ _ hs

theorem scan_steps_le (tbl : List cmd_t) : ∀ (r i : Nat) (s : State), scan_steps tbl r i s ≤ r := by
  intro r
  induction r with
  | zero => intro i s; simp [scan_steps]
  | succ r ih =>
    intro i s
    unfold scan_steps
    dsimp only
    split
    · omega
    · split
      · omega
      · split
        · omega
        · have := ih ((if i ≥ tbl.length then 0 else i) + 1) (tab_advance tbl.length s)
          omega

/-- C18, in the form that holds of the code: for a table whose names hold no
tab byte, a byte fed to `cli_put` never exhausts a recursion depth of two: the
tab calls `cli_complete` once, and the bytes that `cli_complete` feeds back are
handled by `cli_put` without another call of `cli_complete`. For every table the
scanning loop of one `cli_complete` call examines at most `cmd_cnt` entries. -/
theorem C18_completion_terminates (tbl : List cmd_t) (d : Nat)
    (hnames : ∀ e ∈ tbl, 9 ∉ e.cmd) :
    (∀ s c, cli_put tbl (d + 2) s c ≠ Outcome.nofuel)
    ∧ (∀ s, cli_complete (cli_put tbl (d + 1)) tbl s ≠ Outcome.nofuel)
    ∧ (∀ s i, scan_steps tbl tbl.length i s ≤ tbl.length)
    ∧ (∀ e ∈ tbl, ∀ c ∈ e.cmd, ∀ put1 put2 s,
        cli_put_body put1 tbl s c = cli_put_body put2 tbl s c) := by
  refine ⟨?_, cli_complete_ne_nofuel tbl d hnames, fun s i => scan_steps_le tbl _ i s, ?_⟩
  · intro s c h
    by_cases hc : c = 9
    · subst hc
      rw [cli_put_succ] at h
      unfold cli_put_body at h
      by_cases h1 : s.sequence = 1 ∧ s.sequence_char = 0
      · rw [if_pos h1] at h; injection h
      · rw [if_neg h1] at h
        by_cases h2 : (9 : Nat) ≠ s.sequence_char ∧ s.sequence = 1
        · rw [if_pos h2] at h; injection h
        · rw [if_neg h2, if_neg (by decide), if_neg (by decide), if_neg (by decide),
            if_pos rfl] at h
          dsimp only at h
          split at h
          · rename_i s1 hr
            cases hp : cli_complete (cli_put tbl (d + 1)) tbl s1 with
            | ok r => rw [hp] at h; injection h
            | fault f => rw [hp] at h; injection h
            | nofuel => exact cli_complete_ne_nofuel tbl d hnames s1 hp
          · injection h
          · rename_i hr
            split at hr
            · split at hr <;> injection hr
            · injection hr
    · rw [cli_put_succ] at h
      exact cli_put_body_ne_nofuel _ tbl s c hc h
  · intro e he c hc put1 put2 s
    exact cli_put_body_no_tab put1 put2 tbl s c (fun h => hnames e he (h ▸ hc))

theorem C18_completion_terminates_witness :
    (∀ e ∈ demo_tbl, 9 ∉ e.cmd)
    ∧ (∀ s c, cli_put demo_tbl (0 + 2) s c ≠ Outcome.nofuel)
    ∧ (∀ s, cli_complete (cli_put demo_tbl (0 + 1)) demo_tbl s ≠ Outcome.nofuel)
    ∧ (∀ s i, scan_steps demo_tbl demo_tbl.length i s ≤ demo_tbl.length)
    ∧ (∀ e ∈ demo_tbl, ∀ c ∈ e.cmd, ∀ put1 put2 s,
        cli_put_body put1 demo_tbl s c = cli_put_body put2 demo_tbl s c) :=
  have h : ∀ e ∈ demo_tbl, 9 ∉ e.cmd := by
    intro e he
    simp only [demo_tbl, List.mem_cons, List.mem_singleton, List.not_mem_nil, or_false] at he
    rcases he with h | h | h <;> subst h <;> decide
  ⟨h, C18_completion_terminates demo_tbl 0 h⟩

/-- C18, a name with a tab: for the table whose only name is one tab byte, the
tab on the empty line finds that entry and feeds the tab of the name back
through `cli_put`, which calls `cli_complete` again in the same state: no
recursion depth is enough for the call to return. -/
theorem C18_counterexample :
    ¬ ∃ d, cli_put tab_tbl d cli_init 9 ≠ Outcome.nofuel := by
  rintro ⟨d, h⟩
  apply h
  clear h
  have hl : tab_tbl.length = 1 := rfl
  have hg : tab_tbl[0]? = some ⟨[9], fun _ _ => CLI_OK⟩ := rfl
  have key : ∀ d (s : State), s.sequence = 0 → s.prev_char = 0 → s.tab_index = 0 →
      s.buf = cli_init.buf → cli_put tab_tbl d s 9 = Outcome.nofuel := by
    intro d
    induction d with
    | zero => intro s _ _ _ _; rfl
    | succ d ih =>
      intro s h1 h2 h4 h3
      have hs : strlen s.buf = some 0 := by rw [h3]; rfl
      have hchk : checkStringDifference [9] s.buf = 0 := by rw [h3]; rfl
      have := ih { sequence := 0, prev_index := 0, tab_index := 0,
                   sequence_char := s.sequence_char, prev_char := 0, buf := s.buf,
                   buf_ptr := s.buf_ptr, cmd_buf := s.cmd_buf, out := s.out } rfl rfl rfl h3
      simp [cli_put_succ, cli_put_body, h1, h2, h4, cli_complete, hs, complete_scan, hl, hg,
        hchk, cstr, feed_chars, this]
  exact key d cli_init rfl rfl rfl rfl

/-! ### The terminator position of a full line -/

set_option maxRecDepth 100000 in
/-- C11, at capacity: after 128 ordinary bytes the line length is 128, the write
position is index 128, outside the 128-byte buffer, and no byte of the buffer is
0; the terminator case then stores at `buf[128]` and the tab case runs `strlen`
past the end of the buffer. -/
theorem C11_full_buffer :
    (state_of (feed demo_tbl 1 cli_init (List.replicate 128 97))).map
        (fun s => (s.buf_ptr, s.buf.length, s.buf[s.buf_ptr]?, s.buf))
      = some (128, 128, none, List.replicate 128 97)
    ∧ feed demo_tbl 1 cli_init (List.replicate 128 97 ++ [13]) = Outcome.fault Fault.buf_store
    ∧ feed demo_tbl 2 cli_init (List.replicate 128 97 ++ [9]) = Outcome.fault Fault.buf_read := by
  refine ⟨rfl, rfl, rfl⟩

theorem C16_prev_char_witness :
    ((5 : Nat) = 0x1B ∨ (0x1B : Nat) = 0x1B)
    ∧ ∃ s1, cli_put demo_tbl (0 + 1) { cli_init with prev_char := 9 } 0x1B
          = Outcome.ok (s1, CLI_OK)
        ∧ s1.prev_char = 9 ∧ s1.buf = cli_init.buf ∧ s1.buf_ptr = 0 ∧ s1.out = cli_init.out :=
  ⟨Or.inr rfl,
    (C16_prev_char demo_tbl 0 { cli_init with prev_char := 9 } 0x1B).1 (Or.inr (Or.inr rfl))⟩

/-! ### The invariant of the line buffer -/

theorem drop_set_zero (l : List Nat) (N p : Nat) (hl : l.length = N) (hp : p < N)
    (h : l.drop (p + 1) = List.replicate (N - (p + 1)) 0) :
    (l.set p 0).drop p = List.replicate (N - p) 0 := by
  have hp1 : p < l.length := by rw [hl]; exact hp
  rw [List.drop_set, if_neg (Nat.lt_irrefl p), Nat.sub_self, List.drop_eq_getElem_cons hp1, h]
  have e : N - p = (N - (p + 1)) + 1 := by omega
  rw [e, List.replicate_succ]
  rfl

theorem buf_inv_erase (s : State) (c : Nat) (h : buf_inv s) :
    buf_inv { s with buf_ptr := (if s.buf_ptr > 0 then s.buf_ptr - 1 else s.buf_ptr),
                     buf := s.buf.set (if s.buf_ptr > 0 then s.buf_ptr - 1 else s.buf_ptr) 0,
                     out := s.out ++ [Event.print [c]], prev_char := c } := by
  obtain ⟨h1, h2, h3⟩ := h
  have h128 : MAX_BUF_SIZE = 128 := rfl
  by_cases hp : s.buf_ptr > 0
  · simp only [if_pos hp]
    refine ⟨by simp [h1], by simp only; omega, ?_⟩
    simp only
    refine drop_set_zero s.buf MAX_BUF_SIZE (s.buf_ptr - 1) h1 (by omega) ?_
    have e : s.buf_ptr - 1 + 1 = s.buf_ptr := by omega
    rw [e, h3]
  · have h0 : s.buf_ptr = 0 := by omega
    simp only [if_neg hp]
    refine ⟨by simp [h1], h2, ?_⟩
    simp only
    rw [h0] at h3 ⊢
    refine drop_set_zero s.buf MAX_BUF_SIZE 0 h1 (by omega) ?_
    have : s.buf.drop (0 + 1) = (s.buf.drop 0).drop 1 := by simp
    rw [this, h3, List.drop_replicate]
    congr 1

theorem buf_inv_append (s : State) (c : Nat) (h : buf_inv s) (hp : s.buf_ptr < MAX_BUF_SIZE) :
    buf_inv { s with buf := s.buf.set s.buf_ptr c, buf_ptr := s.buf_ptr + 1,
                     out := s.out ++ [Event.print [c]], prev_char := c } := by
  obtain ⟨h1, h2, h3⟩ := h
  refine ⟨by simp [h1], by simp only; omega, ?_⟩
  simp only
  rw [List.drop_set_of_lt _ _ (Nat.lt_succ_self _)]
  have : s.buf.drop (s.buf_ptr + 1) = (s.buf.drop s.buf_ptr).drop 1 := by
    rw [List.drop_drop, Nat.add_comm]
  rw [this, h3, List.drop_replicate]
  congr 1

theorem buf_inv_reset (s : State) (h : buf_inv s) (hp : s.prev_index < MAX_BUF_SIZE) :
    buf_inv { s with
      out := s.out ++ List.replicate (s.buf_ptr - s.prev_index) (Event.print [0x7F])
      buf_ptr := s.prev_index
      buf := s.buf.take s.prev_index ++ List.replicate (MAX_BUF_SIZE - s.prev_index) 0 } := by
  obtain ⟨h1, _, _⟩ := h
  have hl : (s.buf.take s.prev_index).length = s.prev_index := by
    rw [List.length_take, h1]; omega
  refine ⟨?_, Nat.le_of_lt hp, ?_⟩
  · simp only [List.length_append, hl, List.length_replicate]
    omega
  · simp only
    rw [List.drop_append_of_le_length (by omega), List.drop_take]
    simp

theorem buf_inv_feed_chars (put : State → Nat → Outcome (State × cli_status_t))
    (hput : ∀ s c s1 st, buf_inv s → put s c = Outcome.ok (s1, st) → buf_inv s1) :
    ∀ (cs : List Nat) (s s1 : State), buf_inv s → feed_chars put cs s = Outcome.ok s1 →
      buf_inv s1 := by
  intro cs
  induction cs with
  | nil =>
    intro s s1 h hf
    simp only [feed_chars, Outcome.ok.injEq] at hf
    rw [← hf]; exact h
  | cons c cs ih =>
    intro s s1 h hf
    unfold feed_chars at hf
    cases hp : put s c with
    | ok r =>
      obtain ⟨s2, st⟩ := r
      rw [hp] at hf
      exact ih s2 s1 (hput s c s2 st h hp) hf
    | fault f => rw [hp] at hf; injection hf
    | nofuel => rw [hp] at hf; injection hf

theorem buf_inv_tab_advance (n : Nat) (s : State) (h : buf_inv s) : buf_inv (tab_advance n s) := h

theorem buf_inv_complete_scan (put : State → Nat → Outcome (State × cli_status_t))
    (tbl : List cmd_t)
    (hput : ∀ s c s1 st, buf_inv s → put s c = Outcome.ok (s1, st) → buf_inv s1) :
    ∀ (r i : Nat) (s s1 : State), buf_inv s → complete_scan put tbl r i s = Outcome.ok s1 →
      buf_inv s1 := by
  intro r
  induction r with
  | zero =>
    intro i s s1 h hc
    simp only [complete_scan, Outcome.ok.injEq] at hc
    rw [← hc]; exact h
  | succ r ih =>
    intro i s s1 h hc
    unfold complete_scan at hc
    dsimp only at hc
    split at hc
    · injection hc
    · split at hc
      · injection hc
      · split at hc
        · exact buf_inv_feed_chars put hput _ s s1 h hc
        · exact ih _ _ s1 (buf_inv_tab_advance _ s h) hc

theorem buf_inv_cli_complete (put : State → Nat → Outcome (State × cli_status_t))
    (tbl : List cmd_t)
    (hput : ∀ s c s1 st, buf_inv s → put s c = Outcome.ok (s1, st) → buf_inv s1)
    (s s1 : State) (st : cli_status_t) (h : buf_inv s)
    (hc : cli_complete put tbl s = Outcome.ok (s1, st)) : buf_inv s1 := by
  unfold cli_complete at hc
  split at hc
  · injection hc
  · rename_i n hn
    dsimp only at hc
    have h1 : buf_inv { s with prev_index := n % 256 } := h
    cases hs : complete_scan put tbl tbl.length s.tab_index { s with prev_index := n % 256 } with
    | ok s2 =>
      rw [hs] at hc
      injection hc with hc
      injection hc with hc _
      rw [← hc]
      exact buf_inv_tab_advance _ s2 (buf_inv_complete_scan put tbl hput _ _ _ s2 h1 hs)
    | fault f => rw [hs] at hc; injection hc
    | nofuel => rw [hs] at hc; injection hc

/-- Every call of `cli_put` that returns keeps the invariant of the line buffer. -/
theorem buf_inv_cli_put (tbl : List cmd_t) :
    ∀ (d : Nat) (s : State) (c : Nat) (s1 : State) (st : cli_status_t),
      buf_inv s → cli_put tbl d s c = Outcome.ok (s1, st) → buf_inv s1 := by
  intro d
  induction d with
  | zero => intro s c s1 st _ h; simp [cli_put] at h
  | succ d ih =>
    intro s c s1 st hinv h
    rw [cli_put_succ] at h
    unfold cli_put_body at h
    by_cases h1 : s.sequence = 1 ∧ s.sequence_char = 0
    · rw [if_pos h1] at h
      injection h with h; injection h with h _
      rw [← h]; exact hinv
    · rw [if_neg h1] at h
      by_cases h2 : c ≠ s.sequence_char ∧ s.sequence = 1
      · rw [if_pos h2] at h
        injection h with h; injection h with h _
        rw [← h]; exact hinv
      · rw [if_neg h2] at h
        by_cases h3 : c = 0x1B
        · rw [if_pos h3] at h
          injection h with h; injection h with h _
          rw [← h]; exact hinv
        · rw [if_neg h3] at h
          by_cases c13 : c = 13
          · rw [if_pos c13] at h
            split at h
            · split at h
              · injection h
              · rename_i n hn
                cases hp : cli_process tbl (finalize s n) with
                | ok r =>
                  obtain ⟨s3, st3⟩ := r
                  have hf := cli_process_frame tbl _ s3 st3 hp
                  rw [hp] at h
                  injection h with h; injection h with h _
                  have hb : s3.buf_ptr = 0 := by rw [hf]; rfl
                  rw [← h]
                  refine ⟨by simp [cli_print], by simp [cli_print, hb], ?_⟩
                  simp [cli_print, hb]
                | fault f => rw [hp] at h; injection h
                | nofuel => rw [hp] at h; injection h
            · injection h
          · rw [if_neg c13] at h
            by_cases ce : c = 0x7F ∨ c = 8
            · rw [if_pos ce] at h
              dsimp only at h
              by_cases hpp : (if s.buf_ptr > 0 then s.buf_ptr - 1 else s.buf_ptr) < MAX_BUF_SIZE
              · rw [if_pos hpp] at h
                injection h with h; injection h with h _
                rw [← h]
                exact buf_inv_erase s c hinv
              · rw [if_neg hpp] at h
                injection h
            · rw [if_neg ce] at h
              by_cases c9 : c = 9
              · rw [if_pos c9] at h
                dsimp only at h
                have hcomp : ∀ s0, buf_inv s0 →
                    (match cli_complete (cli_put tbl d) tbl s0 with
                      | Outcome.ok (s2, _) => Outcome.ok ({ s2 with prev_char := c }, CLI_OK)
                      | Outcome.fault f => Outcome.fault f
                      | Outcome.nofuel => Outcome.nofuel) = Outcome.ok (s1, st) →
                    buf_inv s1 := by
                  intro s0 h0 hm
                  cases hq : cli_complete (cli_put tbl d) tbl s0 with
                  | ok r =>
                    obtain ⟨s2, st2⟩ := r
                    rw [hq] at hm
                    injection hm with hm; injection hm with hm _
                    rw [← hm]
                    exact buf_inv_cli_complete _ tbl (fun s c s1 st => ih s c s1 st) s0 s2 st2 h0 hq
                  | fault f => rw [hq] at hm; injection hm
                  | nofuel => rw [hq] at hm; injection hm
                by_cases hpc : s.prev_char = c
                · rw [if_pos hpc] at h
                  by_cases hpi : s.prev_index < MAX_BUF_SIZE
                  · rw [if_pos hpi] at h
                    exact hcomp _ (buf_inv_reset s hinv hpi) h
                  · rw [if_neg hpi] at h
                    injection h
                · rw [if_neg hpc] at h
                  exact hcomp s hinv h
              · rw [if_neg c9] at h
                by_cases hp : s.buf_ptr < MAX_BUF_SIZE
                · rw [if_pos hp] at h
                  injection h with h; injection h with h _
                  rw [← h]
                  exact buf_inv_append s c hinv hp
                · rw [if_neg hp] at h
                  injection h with h; injection h with h _
                  rw [← h]; exact hinv

/-- From the initial state every run of `cli_put` calls that returns ends in a
state whose line length is at most `MAX_BUF_SIZE` and, while the length is below
`MAX_BUF_SIZE`, whose buffer holds 0 at the write position. -/
theorem line_buffer_invariant (tbl : List cmd_t) (d : Nat) :
    ∀ (bs : List Nat) (s s1 : State) (sts : List cli_status_t), buf_inv s →
      feed tbl d s bs = Outcome.ok (s1, sts) →
      buf_inv s1 ∧ s1.buf_ptr ≤ MAX_BUF_SIZE
        ∧ (s1.buf_ptr < MAX_BUF_SIZE → s1.buf[s1.buf_ptr]? = some 0) := by
  have fin : ∀ s : State, buf_inv s →
      buf_inv s ∧ s.buf_ptr ≤ MAX_BUF_SIZE
        ∧ (s.buf_ptr < MAX_BUF_SIZE → s.buf[s.buf_ptr]? = some 0) := by
    intro s h
    refine ⟨h, h.2.1, fun hlt => ?_⟩
    obtain ⟨h1, _, h3⟩ := h
    have hb : s.buf_ptr < s.buf.length := by rw [h1]; exact hlt
    have e := List.drop_eq_getElem_cons hb
    rw [h3] at e
    have hk : MAX_BUF_SIZE - s.buf_ptr = (MAX_BUF_SIZE - s.buf_ptr - 1) + 1 := by omega
    rw [hk, List.replicate_succ] at e
    injection e with e1 _
    rw [List.getElem?_eq_getElem hb, ← e1]
  intro bs
  induction bs with
  | nil =>
    intro s s1 sts h hf
    simp only [feed, Outcome.ok.injEq, Prod.mk.injEq] at hf
    rw [← hf.1]; exact fin s h
  | cons c cs ih =>
    intro s s1 sts h hf
    unfold feed at hf
    cases hp : cli_put tbl d s c with
    | ok r =>
      obtain ⟨s2, st⟩ := r
      rw [hp] at hf
      dsimp only at hf
      cases hq : feed tbl d s2 cs with
      | ok r2 =>
        obtain ⟨s3, sts3⟩ := r2
        rw [hq] at hf
        injection hf with hf; injection hf with hf _
        rw [← hf]
        exact ih s2 s3 sts3 (buf_inv_cli_put tbl d s c s2 st h hp) hq
      | fault f => rw [hq] at hf; injection hf
      | nofuel => rw [hq] at hf; injection hf
    | fault f => rw [hp] at hf; injection hf
    | nofuel => rw [hp] at hf; injection hf

theorem buf_inv_cli_init : buf_inv cli_init := ⟨rfl, by decide, rfl⟩

end EmbeddedCli
